import Mathlib

/-!
Verification of the first-order term unification engine
(`term_unification.h` / `term_unification_lib.cpp`).

The C++ `Term<std::string>` class hierarchy (Variable / Constant / Compound)
is embedded as an inductive type.  `Unifier::Substitution`
(`std::map<std::string, std::unique_ptr<Term>>`) is embedded as an
association list with unique keys; `findB` is `std::map::find` and
`insertB` is `operator[]` followed by assignment (insert-or-assign).

The C++ member functions `cloneWithSubstitution`, `occurs` and
`unifyInternal` are mutually recursive through the term structure *and*
through the bindings stored in the substitution, so their termination is
not structural.  They are embedded as fuel-indexed functions returning
`none` when the fuel runs out; fuel is monotone, so a run of the C++ code
that terminates corresponds to every sufficiently large fuel value.
-/

set_option maxHeartbeats 1000000

namespace TermUnification

/-- The `Term<std::string>` hierarchy: `Variable`, `Constant`,
`Compound(functor, args)`. -/
inductive Term where
  | Variable (name : String)
  | Constant (value : String)
  | Compound (functor : String) (args : List Term)

/-- `Unifier::Substitution = std::map<std::string, unique_ptr<Term>>`,
embedded as an association list (keys kept unique by `insertB`). -/
abbrev Subst := List (String × Term)

/-- `std::map::find`: the binding of `k`, if any. -/
def findB : Subst → String → Option Term
  | [], _ => none
  | (k', v) :: rest, k => if k' = k then some v else findB rest k

/-- `working[k] = v` on a `std::map`: insert or assign. -/
def insertB : Subst → String → Term → Subst
  | [], k, v => [(k, v)]
  | (k', v') :: rest, k, v =>
      if k' = k then (k, v) :: rest else (k', v') :: insertB rest k v

mutual
/-- `Unifier::cloneWithSubstitution`: deep-copy `term` while replacing every
bound variable by the (recursively substituted) value of its binding.
`fuel` bounds the call depth; `none` = the C++ recursion would not have
returned within that depth. -/
def cloneWithSubstitution : Nat → Term → Subst → Option Term
  | 0, _, _ => none
  | fuel + 1, t, sub =>
      match t with
      | .Variable n =>
          match findB sub n with
          | some v => cloneWithSubstitution fuel v sub
          | none => some (.Variable n)
      | .Constant c => some (.Constant c)
      | .Compound f args =>
          match cloneList fuel args sub with
          | some rs => some (.Compound f rs)
          | none => none

/-- The argument loop of `cloneWithSubstitution` on a compound term. -/
def cloneList : Nat → List Term → Subst → Option (List Term)
  | 0, _, _ => none
  | _ + 1, [], _ => some []
  | fuel + 1, a :: as, sub =>
      match cloneWithSubstitution fuel a sub, cloneList fuel as sub with
      | some r, some rs => some (r :: rs)
      | _, _ => none
end

/-- `Unifier::substitute`: delegates to `cloneWithSubstitution`. -/
def substitute (fuel : Nat) (term : Term) (sub : Subst) : Option Term :=
  cloneWithSubstitution fuel term sub

mutual
/-- `Unifier::occurs`: does `varName` occur in `term`, resolving bound
variables through `sub`? -/
def occurs : Nat → String → Term → Subst → Option Bool
  | 0, _, _, _ => none
  | fuel + 1, varName, t, sub =>
      match t with
      | .Variable n =>
          if n = varName then some true
          else
            match findB sub n with
            | some v => occurs fuel varName v sub
            | none => some false
      | .Constant _ => some false
      | .Compound _ args => occursList fuel varName args sub

/-- The argument loop of `occurs` on a compound term. -/
def occursList : Nat → String → List Term → Subst → Option Bool
  | 0, _, _, _ => none
  | _ + 1, _, [], _ => some false
  | fuel + 1, varName, a :: as, sub =>
      match occurs fuel varName a sub with
      | some true => some true
      | some false => occursList fuel varName as sub
      | none => none
end

/-- Lexicographic comparison of character lists — the semantics of
`std::string::operator<` (UTF-8 byte order and code-point order agree). -/
def charsLt : List Char → List Char → Bool
  | _, [] => false
  | [], _ :: _ => true
  | a :: as, b :: bs =>
      if a < b then true
      else if b < a then false
      else charsLt as bs

/-- `operator<` on the embedded strings. -/
def strLt (a b : String) : Bool := charsLt a.data b.data

mutual
/-- `Unifier::unifyInternal`: reduce both sides by the working substitution,
then the five-way case analysis.  Result `some (ok, w)` is the C++ return
value `ok` together with the state of `working` afterwards; `none` = out of
fuel. -/
def unifyInternal : Nat → Term → Term → Subst → Option (Bool × Subst)
  | 0, _, _, _ => none
  | fuel + 1, a, b, working =>
      match cloneWithSubstitution fuel a working with
      | none => none
      | some lhs =>
        match cloneWithSubstitution fuel b working with
        | none => none
        | some rhs =>
          match lhs, rhs with
          | .Variable ln, .Variable rn =>
              if ln = rn then some (true, working)
              else
                let first := if strLt ln rn then ln else rn
                let second := if strLt ln rn then rn else ln
                some (true, insertB working first (.Variable second))
          | .Variable ln, _ =>
              match occurs fuel ln rhs working with
              | none => none
              | some true => some (false, working)
              | some false =>
                  match cloneWithSubstitution fuel rhs working with
                  | none => none
                  | some v => some (true, insertB working ln v)
          | _, .Variable rn =>
              match occurs fuel rn lhs working with
              | none => none
              | some true => some (false, working)
              | some false =>
                  match cloneWithSubstitution fuel lhs working with
                  | none => none
                  | some v => some (true, insertB working rn v)
          | .Constant lc, .Constant rc => some (lc == rc, working)
          | .Compound lf largs, .Compound rf rargs =>
              if lf = rf ∧ largs.length = rargs.length then
                unifyArgs fuel (largs.zip rargs) working
              else some (false, working)
          | _, _ => some (false, working)

/-- The left-to-right argument loop of `unifyInternal` on matching
compounds, threading the working substitution. -/
def unifyArgs : Nat → List (Term × Term) → Subst → Option (Bool × Subst)
  | 0, _, _ => none
  | _ + 1, [], working => some (true, working)
  | fuel + 1, p :: rest, working =>
      match unifyInternal fuel p.1 p.2 working with
      | none => none
      | some (false, w) => some (false, w)
      | some (true, w) => unifyArgs fuel rest w
end

/-- `Unifier::unify`: start from an empty working substitution; surface
`std::nullopt` on failure and the accumulated substitution on success.
The outer `Option` is the fuel artifact (`none` = out of fuel). -/
def unify (fuel : Nat) (t1 t2 : Term) : Option (Option Subst) :=
  match unifyInternal fuel t1 t2 [] with
  | none => none
  | some (false, _) => some none
  | some (true, w) => some (some w)

mutual
/-- The variable identifiers occurring in a term. -/
def vars : Term → List String
  | .Variable n => [n]
  | .Constant _ => []
  | .Compound _ args => varsL args

/-- The variable identifiers occurring in a list of terms. -/
def varsL : List Term → List String
  | [] => []
  | a :: as => vars a ++ varsL as
end

mutual
/-- Structural size of a term (a fuel budget for `cloneWithSubstitution`
on unbound terms). -/
def sizeT : Term → Nat
  | .Variable _ => 1
  | .Constant _ => 1
  | .Compound _ args => 1 + sizeL args

/-- Structural size of a list of terms. -/
def sizeL : List Term → Nat
  | [] => 1
  | a :: as => 1 + sizeT a + sizeL as
end

/-- The keys (bound variable identifiers) of a substitution. -/
def keys (s : Subst) : List String := s.map Prod.fst

/-- All identifiers mentioned by a substitution: its keys together with
the variables of every bound value. -/
def subVars (s : Subst) : List String :=
  s.foldr (fun kv acc => kv.1 :: vars kv.2 ++ acc) []

/-- `t` resolves to `r` under `s`: some fuel makes
`cloneWithSubstitution` return `r`.  By fuel monotonicity the result is
unique, so this is the graph of the (partial) C++ function. -/
def Resolves (s : Subst) (t r : Term) : Prop :=
  ∃ fuel, cloneWithSubstitution fuel t s = some r

/-- Well-formedness of a substitution as built by `unifyInternal`: keys are
unique, and each bound value mentions neither its own key nor any key
inserted earlier (`forb`).  Values may mention keys inserted later, which
is exactly the chain shape `X→Y, Y→a` the spec describes. -/
def GoodAux : List String → Subst → Prop
  | _, [] => True
  | forb, (k, v) :: rest =>
      k ∉ forb ∧ (∀ x ∈ vars v, x ≠ k ∧ x ∉ forb) ∧ GoodAux (k :: forb) rest

/-- A well-formed (acyclic) substitution. -/
def Good (s : Subst) : Prop := GoodAux [] s

/-- Extension order on substitutions: every binding of `s` is a binding
of `s'`. -/
def SubstLE (s s' : Subst) : Prop :=
  ∀ x v, findB s x = some v → findB s' x = some v

/-! ### Basic structural lemmas -/

theorem sizeT_pos : ∀ t, 0 < sizeT t := by
  intro t; cases t <;> simp [sizeT]

theorem sizeT_lt_sizeL_of_mem {a : Term} : ∀ {as : List Term}, a ∈ as → sizeT a < sizeL as := by
  intro as
  induction as with
  | nil => intro h; cases h
  | cons b bs ih =>
    intro h
    rcases List.mem_cons.mp h with h | h
    · subst h; simp [sizeL]; omega
    · have := ih h; simp [sizeL]; omega

/-- Structural induction principle for `Term` (the nested `List Term`
handled through a membership hypothesis). -/
theorem term_induction {P : Term → Prop}
    (hv : ∀ n, P (.Variable n)) (hc : ∀ c, P (.Constant c))
    (hcomp : ∀ f args, (∀ a ∈ args, P a) → P (.Compound f args)) :
    ∀ t, P t := by
  have key : ∀ n t, sizeT t ≤ n → P t := by
    intro n
    induction n with
    | zero =>
      intro t ht
      have := sizeT_pos t
      omega
    | succ n ih =>
      intro t ht
      match t with
      | .Variable m => exact hv m
      | .Constant c => exact hc c
      | .Compound f args =>
        apply hcomp
        intro a ha
        apply ih
        have h1 := sizeT_lt_sizeL_of_mem ha
        simp [sizeT] at ht
        omega
  exact fun t => key (sizeT t) t le_rfl

theorem charsLt_asymm : ∀ {as bs : List Char},
    charsLt as bs = true → charsLt bs as = false := by
  intro as
  induction as with
  | nil =>
    intro bs h
    cases bs with
    | nil => simp [charsLt] at h
    | cons b bs => simp [charsLt]
  | cons a as ih =>
    intro bs h
    cases bs with
    | nil => simp [charsLt] at h
    | cons b bs =>
      simp only [charsLt] at h ⊢
      by_cases hab : a < b
      · rw [if_neg (lt_asymm hab), if_pos hab]
      · rw [if_neg hab] at h
        by_cases hba : b < a
        · rw [if_pos hba] at h
          exact absurd h (by simp)
        · rw [if_neg hba] at h
          rw [if_neg hba, if_neg hab]
          exact ih h

theorem charsLt_total : ∀ {as bs : List Char}, as ≠ bs →
    charsLt as bs = true ∨ charsLt bs as = true := by
  intro as
  induction as with
  | nil =>
    intro bs h
    cases bs with
    | nil => exact absurd rfl h
    | cons b bs => exact Or.inl (by simp [charsLt])
  | cons a as ih =>
    intro bs h
    cases bs with
    | nil => exact Or.inr (by simp [charsLt])
    | cons b bs =>
      by_cases hab : a < b
      · exact Or.inl (by simp [charsLt, hab])
      · by_cases hba : b < a
        · exact Or.inr (by simp [charsLt, hba])
        · have hab2 : a = b := le_antisymm (not_lt.mp hba) (not_lt.mp hab)
          subst hab2
          have hne : as ≠ bs := fun hc => h (by rw [hc])
          rcases ih hne with h1 | h1
          · exact Or.inl (by simp [charsLt, h1])
          · exact Or.inr (by simp [charsLt, h1])

theorem strLt_asymm {a b : String} (h : strLt a b = true) : strLt b a = false :=
  charsLt_asymm h

theorem strLt_total {a b : String} (h : a ≠ b) :
    strLt a b = true ∨ strLt b a = true := by
  apply charsLt_total
  intro hc
  apply h
  cases a
  cases b
  exact congrArg String.mk hc

theorem strLt_irrefl (a : String) : strLt a a = false := by
  cases hl : strLt a a with
  | false => rfl
  | true => exact absurd (strLt_asymm hl) (by simp [hl])

mutual
/-- Boolean structural equality on terms. -/
def beqT : Term → Term → Bool
  | .Variable n, .Variable m => n == m
  | .Constant c, .Constant d => c == d
  | .Compound f args, .Compound g brgs => f == g && beqL args brgs
  | _, _ => false

/-- Boolean structural equality on lists of terms. -/
def beqL : List Term → List Term → Bool
  | [], [] => true
  | a :: as, b :: bs => beqT a b && beqL as bs
  | _, _ => false
end

theorem beqL_iff_of_pointwise :
    ∀ (as : List Term), (∀ a ∈ as, ∀ b, beqT a b = true ↔ a = b) →
      ∀ bs, beqL as bs = true ↔ as = bs := by
  intro as
  induction as with
  | nil =>
    intro _ bs
    cases bs <;> simp [beqL]
  | cons a as ih =>
    intro hpt bs
    cases bs with
    | nil => simp [beqL]
    | cons b bs =>
      have ha := hpt a (List.mem_cons_self a as) b
      have hrest := ih (fun x hx b' => hpt x (List.mem_cons_of_mem a hx) b') bs
      simp [beqL, ha, hrest]

theorem beqT_iff : ∀ t t', beqT t t' = true ↔ t = t' := by
  intro t
  induction t using term_induction with
  | hv n => intro t'; cases t' <;> simp [beqT]
  | hc c => intro t'; cases t' <;> simp [beqT]
  | hcomp f args ih =>
    intro t'
    cases t' with
    | Variable _ => simp [beqT]
    | Constant _ => simp [beqT]
    | Compound g brgs =>
      have := beqL_iff_of_pointwise args ih brgs
      simp [beqT, this]

instance : DecidableEq Term := fun t t' =>
  decidable_of_iff (beqT t t' = true) (beqT_iff t t')

/-! ### Fuel monotonicity -/

theorem clone_mono : ∀ fuel fuel', fuel ≤ fuel' →
    (∀ t s r, cloneWithSubstitution fuel t s = some r →
        cloneWithSubstitution fuel' t s = some r) ∧
    (∀ l s rs, cloneList fuel l s = some rs → cloneList fuel' l s = some rs) := by
  intro fuel
  induction fuel with
  | zero =>
    intro fuel' _
    constructor
    · intro t s r h; simp [cloneWithSubstitution] at h
    · intro l s rs h; simp [cloneList] at h
  | succ n ih =>
    intro fuel' hle
    obtain ⟨m, rfl⟩ : ∃ m, fuel' = m + 1 := ⟨fuel' - 1, by omega⟩
    have hm : n ≤ m := by omega
    constructor
    · intro t s r h
      cases t with
      | Variable nm =>
        simp only [cloneWithSubstitution] at h ⊢
        cases hf : findB s nm with
        | none => simp [hf] at h ⊢; exact h
        | some v =>
          simp only [hf] at h ⊢
          exact (ih m hm).1 v s r h
      | Constant c =>
        simpa [cloneWithSubstitution] using h
      | Compound f args =>
        simp only [cloneWithSubstitution] at h ⊢
        cases hc : cloneList n args s with
        | none => simp [hc] at h
        | some rs =>
          have := (ih m hm).2 args s rs hc
          simp [hc] at h
          simp [this, ← h]
    · intro l s rs h
      cases l with
      | nil => simpa [cloneList] using h
      | cons a as =>
        simp only [cloneList] at h ⊢
        cases h1 : cloneWithSubstitution n a s with
        | none => simp [h1] at h
        | some r =>
          cases h2 : cloneList n as s with
          | none => simp [h1, h2] at h
          | some rs' =>
            have e1 := (ih m hm).1 a s r h1
            have e2 := (ih m hm).2 as s rs' h2
            simp [h1, h2] at h
            simp [e1, e2, ← h]

theorem occurs_mono : ∀ fuel fuel', fuel ≤ fuel' →
    (∀ x t s b, occurs fuel x t s = some b → occurs fuel' x t s = some b) ∧
    (∀ x l s b, occursList fuel x l s = some b → occursList fuel' x l s = some b) := by
  intro fuel
  induction fuel with
  | zero =>
    intro fuel' _
    constructor
    · intro x t s b h; simp [occurs] at h
    · intro x l s b h; simp [occursList] at h
  | succ n ih =>
    intro fuel' hle
    obtain ⟨m, rfl⟩ : ∃ m, fuel' = m + 1 := ⟨fuel' - 1, by omega⟩
    have hm : n ≤ m := by omega
    constructor
    · intro x t s b h
      cases t with
      | Variable nm =>
        simp only [occurs] at h ⊢
        by_cases hx : nm = x
        · simp [hx] at h ⊢; exact h
        · simp only [hx, if_false] at h ⊢
          cases hf : findB s nm with
          | none => simp [hf] at h ⊢; exact h
          | some v =>
            simp only [hf] at h ⊢
            exact (ih m hm).1 x v s b h
      | Constant c => simpa [occurs] using h
      | Compound f args =>
        simp only [occurs] at h ⊢
        exact (ih m hm).2 x args s b h
    · intro x l s b h
      cases l with
      | nil => simpa [occursList] using h
      | cons a as =>
        simp only [occursList] at h ⊢
        cases h1 : occurs n x a s with
        | none => simp [h1] at h
        | some b1 =>
          have e1 := (ih m hm).1 x a s b1 h1
          rw [e1]
          rw [h1] at h
          cases b1 with
          | true => exact h
          | false => exact (ih m hm).2 x as s b h

theorem ui_mono : ∀ fuel fuel', fuel ≤ fuel' →
    (∀ a b w res, unifyInternal fuel a b w = some res →
        unifyInternal fuel' a b w = some res) ∧
    (∀ ps w res, unifyArgs fuel ps w = some res → unifyArgs fuel' ps w = some res) := by
  intro fuel
  induction fuel with
  | zero =>
    intro fuel' _
    constructor
    · intro a b w res h; simp [unifyInternal] at h
    · intro ps w res h; simp [unifyArgs] at h
  | succ n ih =>
    intro fuel' hle
    obtain ⟨m, rfl⟩ : ∃ m, fuel' = m + 1 := ⟨fuel' - 1, by omega⟩
    have hm : n ≤ m := by omega
    constructor
    · intro a b w res h
      simp only [unifyInternal] at h ⊢
      cases hca : cloneWithSubstitution n a w with
      | none => rw [hca] at h; simp at h
      | some lhs =>
        rw [hca] at h
        rw [(clone_mono n m hm).1 a w lhs hca]
        cases hcb : cloneWithSubstitution n b w with
        | none => rw [hcb] at h; simp at h
        | some rhs =>
          rw [hcb] at h
          rw [(clone_mono n m hm).1 b w rhs hcb]
          cases lhs with
          | Variable ln =>
            cases rhs with
            | Variable rn => exact h
            | Constant rc =>
              simp only at h ⊢
              cases ho : occurs n ln (Term.Constant rc) w with
              | none => rw [ho] at h; simp at h
              | some ob =>
                rw [ho] at h
                rw [(occurs_mono n m hm).1 ln (Term.Constant rc) w ob ho]
                cases ob with
                | true => exact h
                | false =>
                  simp only at h ⊢
                  cases hcv : cloneWithSubstitution n (Term.Constant rc) w with
                  | none => rw [hcv] at h; simp at h
                  | some v =>
                    rw [hcv] at h
                    rw [(clone_mono n m hm).1 _ w v hcv]
                    exact h
            | Compound rf rargs =>
              simp only at h ⊢
              cases ho : occurs n ln (Term.Compound rf rargs) w with
              | none => rw [ho] at h; simp at h
              | some ob =>
                rw [ho] at h
                rw [(occurs_mono n m hm).1 ln (Term.Compound rf rargs) w ob ho]
                cases ob with
                | true => exact h
                | false =>
                  simp only at h ⊢
                  cases hcv : cloneWithSubstitution n (Term.Compound rf rargs) w with
                  | none => rw [hcv] at h; simp at h
                  | some v =>
                    rw [hcv] at h
                    rw [(clone_mono n m hm).1 _ w v hcv]
                    exact h
          | Constant lc =>
            cases rhs with
            | Variable rn =>
              simp only at h ⊢
              cases ho : occurs n rn (Term.Constant lc) w with
              | none => rw [ho] at h; simp at h
              | some ob =>
                rw [ho] at h
                rw [(occurs_mono n m hm).1 rn (Term.Constant lc) w ob ho]
                cases ob with
                | true => exact h
                | false =>
                  simp only at h ⊢
                  cases hcv : cloneWithSubstitution n (Term.Constant lc) w with
                  | none => rw [hcv] at h; simp at h
                  | some v =>
                    rw [hcv] at h
                    rw [(clone_mono n m hm).1 _ w v hcv]
                    exact h
            | Constant rc => exact h
            | Compound rf rargs => exact h
          | Compound lf largs =>
            cases rhs with
            | Variable rn =>
              simp only at h ⊢
              cases ho : occurs n rn (Term.Compound lf largs) w with
              | none => rw [ho] at h; simp at h
              | some ob =>
                rw [ho] at h
                rw [(occurs_mono n m hm).1 rn (Term.Compound lf largs) w ob ho]
                cases ob with
                | true => exact h
                | false =>
                  simp only at h ⊢
                  cases hcv : cloneWithSubstitution n (Term.Compound lf largs) w with
                  | none => rw [hcv] at h; simp at h
                  | some v =>
                    rw [hcv] at h
                    rw [(clone_mono n m hm).1 _ w v hcv]
                    exact h
            | Constant rc => exact h
            | Compound rf rargs =>
              simp only at h ⊢
              by_cases hfa : lf = rf ∧ largs.length = rargs.length
              · simp only [if_pos hfa] at h ⊢
                exact (ih m hm).2 (largs.zip rargs) w res h
              · simp only [if_neg hfa] at h ⊢
                exact h
    · intro ps w res h
      cases ps with
      | nil => simpa [unifyArgs] using h
      | cons p rest =>
        simp only [unifyArgs] at h ⊢
        cases h1 : unifyInternal n p.1 p.2 w with
        | none => rw [h1] at h; simp at h
        | some r1 =>
          rw [h1] at h
          rw [(ih m hm).1 p.1 p.2 w r1 h1]
          obtain ⟨ok, w'⟩ := r1
          cases ok with
          | false => exact h
          | true => exact (ih m hm).2 rest w' res h


/-! ### Association-list (std::map) lemmas -/

theorem findB_insertB (s : Subst) (k : String) (v : Term) (x : String) :
    findB (insertB s k v) x = if k = x then some v else findB s x := by
  induction s with
  | nil => simp [insertB, findB]
  | cons e rest ih =>
    obtain ⟨k', v'⟩ := e
    by_cases hk : k' = k
    · subst hk
      simp only [insertB, if_pos rfl, findB]
      by_cases hx : k' = x
      · simp [hx]
      · simp [hx, findB]
    · simp only [insertB, if_neg hk, findB]
      by_cases hx : k' = x
      · subst hx
        have : ¬ k = k' := fun h => hk h.symm
        simp [this]
      · simp [hx, ih]

theorem insertB_of_unbound {s : Subst} {k : String} (v : Term) (h : findB s k = none) :
    insertB s k v = s ++ [(k, v)] := by
  induction s with
  | nil => simp [insertB]
  | cons e rest ih =>
    obtain ⟨k', v'⟩ := e
    simp only [findB] at h
    by_cases hk : k' = k
    · simp [hk] at h
    · simp only [insertB, if_neg hk, List.cons_append, List.cons.injEq, true_and]
      exact ih (by simpa [hk] using h)

theorem findB_eq_none_iff {s : Subst} {x : String} :
    findB s x = none ↔ x ∉ keys s := by
  induction s with
  | nil => simp [findB, keys]
  | cons e rest ih =>
    obtain ⟨k', v'⟩ := e
    by_cases hk : k' = x
    · subst hk; simp [findB, keys]
    · simp [findB, hk, keys, ih, Ne.symm hk]

theorem findB_mem_keys {s : Subst} {x : String} {v : Term}
    (h : findB s x = some v) : x ∈ keys s := by
  by_contra hx
  rw [← findB_eq_none_iff] at hx
  rw [hx] at h
  exact Option.noConfusion h

theorem subVars_of_findB {s : Subst} {nm : String} {v : Term}
    (h : findB s nm = some v) : ∀ x ∈ vars v, x ∈ subVars s := by
  induction s with
  | nil => simp [findB] at h
  | cons e rest ih =>
    obtain ⟨k', v'⟩ := e
    intro x hx
    simp only [findB] at h
    by_cases hk : k' = nm
    · rw [if_pos hk] at h
      cases h
      simp [subVars, hx]
    · simp only [hk, if_false] at h
      have := ih h x hx
      simp [subVars] at this ⊢
      tauto

theorem keys_mem_subVars {s : Subst} {x : String} (h : x ∈ keys s) :
    x ∈ subVars s := by
  induction s with
  | nil => simp [keys] at h
  | cons e rest ih =>
    obtain ⟨k', v'⟩ := e
    simp only [keys, List.map_cons, List.mem_cons] at h
    rcases h with h | h
    · simp [subVars, h]
    · have := ih h
      simp [subVars, keys] at this ⊢
      tauto

/-! ### Determinism of resolution -/

theorem clone_det {f1 f2 : Nat} {t : Term} {s : Subst} {r1 r2 : Term}
    (h1 : cloneWithSubstitution f1 t s = some r1)
    (h2 : cloneWithSubstitution f2 t s = some r2) : r1 = r2 := by
  have e1 := (clone_mono f1 (max f1 f2) (Nat.le_max_left _ _)).1 t s r1 h1
  have e2 := (clone_mono f2 (max f1 f2) (Nat.le_max_right _ _)).1 t s r2 h2
  rw [e1] at e2
  exact Option.some.inj e2

theorem resolves_det {s : Subst} {t r1 r2 : Term}
    (h1 : Resolves s t r1) (h2 : Resolves s t r2) : r1 = r2 := by
  obtain ⟨f1, h1⟩ := h1
  obtain ⟨f2, h2⟩ := h2
  exact clone_det h1 h2

/-- Resolution of a list of terms (the graph of `cloneList`). -/
def ResolvesL (s : Subst) (l rs : List Term) : Prop :=
  ∃ fuel, cloneList fuel l s = some rs

theorem cloneList_det {f1 f2 : Nat} {l : List Term} {s : Subst} {r1 r2 : List Term}
    (h1 : cloneList f1 l s = some r1)
    (h2 : cloneList f2 l s = some r2) : r1 = r2 := by
  have e1 := (clone_mono f1 (max f1 f2) (Nat.le_max_left _ _)).2 l s r1 h1
  have e2 := (clone_mono f2 (max f1 f2) (Nat.le_max_right _ _)).2 l s r2 h2
  rw [e1] at e2
  exact Option.some.inj e2

/-! ### Properties of `cloneWithSubstitution` -/

/-- Every variable left in the output of `cloneWithSubstitution` is unbound:
the clone resolves chains to a fixed point. -/
theorem clone_vars_unbound : ∀ fuel,
    (∀ t s r, cloneWithSubstitution fuel t s = some r →
        ∀ x ∈ vars r, findB s x = none) ∧
    (∀ l s rs, cloneList fuel l s = some rs →
        ∀ x ∈ varsL rs, findB s x = none) := by
  intro fuel
  induction fuel with
  | zero =>
    constructor
    · intro t s r h; simp [cloneWithSubstitution] at h
    · intro l s rs h; simp [cloneList] at h
  | succ n ih =>
    constructor
    · intro t s r h x hx
      cases t with
      | Variable nm =>
        simp only [cloneWithSubstitution] at h
        cases hf : findB s nm with
        | some v =>
          rw [hf] at h
          exact ih.1 v s r h x hx
        | none =>
          rw [hf] at h
          cases h
          simp [vars] at hx
          subst hx
          exact hf
      | Constant c =>
        simp only [cloneWithSubstitution] at h
        cases h
        simp [vars] at hx
      | Compound f args =>
        simp only [cloneWithSubstitution] at h
        cases hc : cloneList n args s with
        | none => rw [hc] at h; exact Option.noConfusion h
        | some rs =>
          rw [hc] at h
          cases h
          simp only [vars] at hx
          exact ih.2 args s rs hc x hx
    · intro l s rs h x hx
      cases l with
      | nil =>
        simp only [cloneList] at h
        cases h
        simp [varsL] at hx
      | cons a as =>
        simp only [cloneList] at h
        cases h1 : cloneWithSubstitution n a s with
        | none => rw [h1] at h; exact Option.noConfusion h
        | some r =>
          cases h2 : cloneList n as s with
          | none => rw [h1, h2] at h; exact Option.noConfusion h
          | some rs' =>
            rw [h1, h2] at h
            cases h
            simp only [varsL, List.mem_append] at hx
            rcases hx with hx | hx
            · exact ih.1 a s r h1 x hx
            · exact ih.2 as s rs' h2 x hx

/-- On a term all of whose variables are unbound, `cloneWithSubstitution`
is the identity, and `sizeT` fuel suffices. -/
theorem clone_id_of_unbound : ∀ fuel,
    (∀ t s, (∀ x ∈ vars t, findB s x = none) → sizeT t ≤ fuel →
        cloneWithSubstitution fuel t s = some t) ∧
    (∀ l s, (∀ x ∈ varsL l, findB s x = none) → sizeL l ≤ fuel →
        cloneList fuel l s = some l) := by
  intro fuel
  induction fuel with
  | zero =>
    constructor
    · intro t s _ hst; have := sizeT_pos t; omega
    · intro l s _ hsl
      have : 0 < sizeL l := by cases l <;> simp [sizeL]
      omega
  | succ n ih =>
    constructor
    · intro t s hub hst
      cases t with
      | Variable nm =>
        have := hub nm (by simp [vars])
        simp [cloneWithSubstitution, this]
      | Constant c => simp [cloneWithSubstitution]
      | Compound f args =>
        simp only [sizeT] at hst
        have harg : cloneList n args s = some args := by
          apply ih.2 args s
          · intro x hx; exact hub x (by simpa [vars] using hx)
          · omega
        simp [cloneWithSubstitution, harg]
    · intro l s hub hsl
      cases l with
      | nil => simp [cloneList]
      | cons a as =>
        simp only [sizeL] at hsl
        have h1 : cloneWithSubstitution n a s = some a := by
          apply ih.1 a s
          · intro x hx; exact hub x (by simp [varsL, hx])
          · omega
        have h2 : cloneList n as s = some as := by
          apply ih.2 as s
          · intro x hx; exact hub x (by simp [varsL, hx])
          · omega
        simp [cloneList, h1, h2]

/-- A term whose variables are all unbound resolves to itself. -/
theorem resolves_self {s : Subst} {t : Term}
    (h : ∀ x ∈ vars t, findB s x = none) : Resolves s t t :=
  ⟨sizeT t, (clone_id_of_unbound (sizeT t)).1 t s h le_rfl⟩

/-- Resolution is idempotent: a resolved term resolves to itself. -/
theorem resolves_idem {s : Subst} {t r : Term}
    (h : Resolves s t r) : Resolves s r r := by
  obtain ⟨f, hf⟩ := h
  exact resolves_self (fun x hx => (clone_vars_unbound f).1 t s r hf x hx)

/-- Variables of a resolved term come from the original term or from the
values stored in the substitution. -/
theorem clone_vars_subset : ∀ fuel,
    (∀ t s r, cloneWithSubstitution fuel t s = some r →
        ∀ x ∈ vars r, x ∈ vars t ∨ x ∈ subVars s) ∧
    (∀ l s rs, cloneList fuel l s = some rs →
        ∀ x ∈ varsL rs, x ∈ varsL l ∨ x ∈ subVars s) := by
  intro fuel
  induction fuel with
  | zero =>
    constructor
    · intro t s r h; simp [cloneWithSubstitution] at h
    · intro l s rs h; simp [cloneList] at h
  | succ n ih =>
    constructor
    · intro t s r h x hx
      cases t with
      | Variable nm =>
        simp only [cloneWithSubstitution] at h
        cases hf : findB s nm with
        | some v =>
          rw [hf] at h
          rcases ih.1 v s r h x hx with hv | hv
          · exact Or.inr (subVars_of_findB hf x hv)
          · exact Or.inr hv
        | none =>
          rw [hf] at h
          cases h
          exact Or.inl hx
      | Constant c =>
        simp only [cloneWithSubstitution] at h
        cases h
        simp [vars] at hx
      | Compound f args =>
        simp only [cloneWithSubstitution] at h
        cases hc : cloneList n args s with
        | none => rw [hc] at h; exact Option.noConfusion h
        | some rs =>
          rw [hc] at h
          cases h
          simp only [vars] at hx ⊢
          exact ih.2 args s rs hc x hx
    · intro l s rs h x hx
      cases l with
      | nil =>
        simp only [cloneList] at h
        cases h
        simp [varsL] at hx
      | cons a as =>
        simp only [cloneList] at h
        cases h1 : cloneWithSubstitution n a s with
        | none => rw [h1] at h; exact Option.noConfusion h
        | some r =>
          cases h2 : cloneList n as s with
          | none => rw [h1, h2] at h; exact Option.noConfusion h
          | some rs' =>
            rw [h1, h2] at h
            cases h
            simp only [varsL, List.mem_append] at hx
            rcases hx with hx | hx
            · rcases ih.1 a s r h1 x hx with hv | hv
              · exact Or.inl (by simp [varsL, hv])
              · exact Or.inr hv
            · rcases ih.2 as s rs' h2 x hx with hv | hv
              · exact Or.inl (by simp [varsL, hv])
              · exact Or.inr hv

/-! ### Properties of `occurs` -/

/-- On a term whose variables are all unbound, `occurs` is the plain
structural occurrence test, and `sizeT` fuel suffices. -/
theorem occurs_unbound : ∀ fuel,
    (∀ x t s, (∀ y ∈ vars t, findB s y = none) → sizeT t ≤ fuel →
        occurs fuel x t s = some (decide (x ∈ vars t))) ∧
    (∀ x l s, (∀ y ∈ varsL l, findB s y = none) → sizeL l ≤ fuel →
        occursList fuel x l s = some (decide (x ∈ varsL l))) := by
  intro fuel
  induction fuel with
  | zero =>
    constructor
    · intro x t s _ hst; have := sizeT_pos t; omega
    · intro x l s _ hsl
      have : 0 < sizeL l := by cases l <;> simp [sizeL]
      omega
  | succ n ih =>
    constructor
    · intro x t s hub hst
      cases t with
      | Variable nm =>
        by_cases hx : nm = x
        · simp [occurs, hx, vars]
        · have := hub nm (by simp [vars])
          simp [occurs, hx, this, vars]
          exact fun h => hx h.symm
      | Constant c => simp [occurs, vars]
      | Compound f args =>
        simp only [sizeT] at hst
        have := ih.2 x args s (fun y hy => hub y (by simpa [vars] using hy)) (by omega)
        simp [occurs, vars, this]
    · intro x l s hub hsl
      cases l with
      | nil => simp [occursList, varsL]
      | cons a as =>
        simp only [sizeL] at hsl
        have h1 := ih.1 x a s (fun y hy => hub y (by simp [varsL, hy])) (by omega)
        have h2 := ih.2 x as s (fun y hy => hub y (by simp [varsL, hy])) (by omega)
        by_cases hxa : x ∈ vars a
        · simp [occursList, h1, hxa, varsL]
        · simp [occursList, h1, hxa, h2, varsL]

/-! ### Resolution as a relation -/

theorem resolvesL_nil (s : Subst) : ResolvesL s [] [] := ⟨1, rfl⟩

theorem resolvesL_cons {s : Subst} {a r : Term} {as rs : List Term}
    (h1 : Resolves s a r) (h2 : ResolvesL s as rs) :
    ResolvesL s (a :: as) (r :: rs) := by
  obtain ⟨f1, h1⟩ := h1
  obtain ⟨f2, h2⟩ := h2
  refine ⟨max f1 f2 + 1, ?_⟩
  have e1 := (clone_mono f1 (max f1 f2) (Nat.le_max_left _ _)).1 _ _ _ h1
  have e2 := (clone_mono f2 (max f1 f2) (Nat.le_max_right _ _)).2 _ _ _ h2
  simp [cloneList, e1, e2]

theorem resolves_comp {s : Subst} {f : String} {l rs : List Term}
    (h : ResolvesL s l rs) : Resolves s (.Compound f l) (.Compound f rs) := by
  obtain ⟨g, h⟩ := h
  exact ⟨g + 1, by simp [cloneWithSubstitution, h]⟩

theorem resolvesL_nil_inv {s : Subst} {rs : List Term}
    (h : ResolvesL s [] rs) : rs = [] := by
  obtain ⟨g, h⟩ := h
  cases g with
  | zero => simp [cloneList] at h
  | succ n =>
    simp only [cloneList] at h
    exact (Option.some.inj h).symm

theorem resolvesL_cons_inv {s : Subst} {a : Term} {as rr : List Term}
    (h : ResolvesL s (a :: as) rr) :
    ∃ r rs, rr = r :: rs ∧ Resolves s a r ∧ ResolvesL s as rs := by
  obtain ⟨g, h⟩ := h
  cases g with
  | zero => simp [cloneList] at h
  | succ n =>
    simp only [cloneList] at h
    cases h1 : cloneWithSubstitution n a s with
    | none => rw [h1] at h; exact Option.noConfusion h
    | some r =>
      cases h2 : cloneList n as s with
      | none => rw [h1, h2] at h; exact Option.noConfusion h
      | some rs =>
        rw [h1, h2] at h
        cases h
        exact ⟨r, rs, rfl, ⟨n, h1⟩, ⟨n, h2⟩⟩

theorem resolves_comp_inv {s : Subst} {f : String} {l : List Term} {r : Term}
    (h : Resolves s (.Compound f l) r) :
    ∃ rs, r = .Compound f rs ∧ ResolvesL s l rs := by
  obtain ⟨g, h⟩ := h
  cases g with
  | zero => simp [cloneWithSubstitution] at h
  | succ n =>
    simp only [cloneWithSubstitution] at h
    cases hc : cloneList n l s with
    | none => rw [hc] at h; exact Option.noConfusion h
    | some rs =>
      rw [hc] at h
      cases h
      exact ⟨rs, rfl, ⟨n, hc⟩⟩

theorem resolves_var_bound {s : Subst} {nm : String} {v r : Term}
    (hf : findB s nm = some v) (h : Resolves s v r) :
    Resolves s (.Variable nm) r := by
  obtain ⟨g, h⟩ := h
  exact ⟨g + 1, by simp [cloneWithSubstitution, hf, h]⟩

theorem resolves_var_unbound {s : Subst} {nm : String}
    (hf : findB s nm = none) : Resolves s (.Variable nm) (.Variable nm) :=
  ⟨1, by simp [cloneWithSubstitution, hf]⟩

theorem resolves_const (s : Subst) (c : String) :
    Resolves s (.Constant c) (.Constant c) :=
  ⟨1, by simp [cloneWithSubstitution]⟩

/-- Resolving through an extension factors: if `t` resolves to `t0` under
`s`, and `s'` extends `s`, then `t` and `t0` resolve to the same things
under `s'`. -/
theorem resolves_ext_aux : ∀ fuel,
    (∀ (s s' : Subst) t t0 r, SubstLE s s' →
        cloneWithSubstitution fuel t s = some t0 →
        Resolves s' t0 r → Resolves s' t r) ∧
    (∀ (s s' : Subst) l l0 rs, SubstLE s s' →
        cloneList fuel l s = some l0 →
        ResolvesL s' l0 rs → ResolvesL s' l rs) := by
  intro fuel
  induction fuel with
  | zero =>
    constructor
    · intro s s' t t0 r _ h; simp [cloneWithSubstitution] at h
    · intro s s' l l0 rs _ h; simp [cloneList] at h
  | succ n ih =>
    constructor
    · intro s s' t t0 r hle h hres
      cases t with
      | Variable nm =>
        simp only [cloneWithSubstitution] at h
        cases hf : findB s nm with
        | some v =>
          rw [hf] at h
          have hf' : findB s' nm = some v := hle nm v hf
          exact resolves_var_bound hf' (ih.1 s s' v t0 r hle h hres)
        | none =>
          rw [hf] at h
          cases h
          exact hres
      | Constant c =>
        simp only [cloneWithSubstitution] at h
        cases h
        exact hres
      | Compound f args =>
        simp only [cloneWithSubstitution] at h
        cases hc : cloneList n args s with
        | none => rw [hc] at h; exact Option.noConfusion h
        | some l0' =>
          rw [hc] at h
          cases h
          obtain ⟨rs, rfl, hrs⟩ := resolves_comp_inv hres
          exact resolves_comp (ih.2 s s' args l0' rs hle hc hrs)
    · intro s s' l l0 rs hle h hres
      cases l with
      | nil =>
        simp only [cloneList] at h
        cases h
        rw [resolvesL_nil_inv hres]
        exact resolvesL_nil s'
      | cons a as =>
        simp only [cloneList] at h
        cases h1 : cloneWithSubstitution n a s with
        | none => rw [h1] at h; exact Option.noConfusion h
        | some r0 =>
          cases h2 : cloneList n as s with
          | none => rw [h1, h2] at h; exact Option.noConfusion h
          | some l0' =>
            rw [h1, h2] at h
            cases h
            obtain ⟨r', rs', rfl, hr', hrs'⟩ := resolvesL_cons_inv hres
            exact resolvesL_cons (ih.1 s s' a r0 r' hle h1 hr')
              (ih.2 s s' as l0' rs' hle h2 hrs')

/-- Relational form of the extension lemma. -/
theorem resolves_ext {s s' : Subst} {t t0 r : Term} (hle : SubstLE s s')
    (h1 : Resolves s t t0) (h2 : Resolves s' t0 r) : Resolves s' t r := by
  obtain ⟨f, h1⟩ := h1
  exact (resolves_ext_aux f).1 s s' t t0 r hle h1 h2

/-! ### Well-formed substitutions and totality of resolution -/

theorem substLE_refl (s : Subst) : SubstLE s s := fun _ _ h => h

theorem substLE_trans {s1 s2 s3 : Subst}
    (h1 : SubstLE s1 s2) (h2 : SubstLE s2 s3) : SubstLE s1 s3 :=
  fun x v h => h2 x v (h1 x v h)

theorem substLE_insert {s : Subst} {k : String} (v : Term)
    (h : findB s k = none) : SubstLE s (insertB s k v) := by
  intro x u hx
  rw [findB_insertB]
  by_cases hk : k = x
  · subst hk; rw [h] at hx; exact Option.noConfusion hx
  · simp [hk, hx]

theorem goodAux_congr {forb forb' : List String}
    (hiff : ∀ x, x ∈ forb ↔ x ∈ forb') :
    ∀ {ss : Subst}, GoodAux forb ss → GoodAux forb' ss := by
  intro ss
  induction ss generalizing forb forb' with
  | nil => intro _; trivial
  | cons e rest ih =>
    obtain ⟨k, v⟩ := e
    intro h
    obtain ⟨hkf, hvf, hrest⟩ := h
    refine ⟨fun hx => hkf ((hiff k).mpr hx), ?_, ?_⟩
    · intro x hx
      exact ⟨(hvf x hx).1, fun hc => (hvf x hx).2 ((hiff x).mpr hc)⟩
    · apply ih ?_ hrest
      intro x
      simp only [List.mem_cons]
      constructor
      · rintro (rfl | hx)
        · exact Or.inl rfl
        · exact Or.inr ((hiff x).mp hx)
      · rintro (rfl | hx)
        · exact Or.inl rfl
        · exact Or.inr ((hiff x).mpr hx)

theorem goodAux_append {forb : List String} :
    ∀ {ss : Subst} {k : String} {v : Term}, GoodAux forb ss →
      k ∉ forb → k ∉ keys ss →
      (∀ x ∈ vars v, x ≠ k ∧ x ∉ forb ∧ x ∉ keys ss) →
      GoodAux forb (ss ++ [(k, v)]) := by
  intro ss
  induction ss generalizing forb with
  | nil =>
    intro k v _ hkf _ hvf
    exact ⟨hkf, fun x hx => ⟨(hvf x hx).1, (hvf x hx).2.1⟩, trivial⟩
  | cons e rest ih =>
    obtain ⟨k0, v0⟩ := e
    intro k v hgood hkf hkk hvf
    obtain ⟨h0f, h0v, hrest⟩ := hgood
    refine ⟨h0f, h0v, ?_⟩
    apply ih hrest
    · intro hc
      rcases List.mem_cons.mp hc with rfl | hc
      · exact hkk (by simp [keys])
      · exact hkf hc
    · intro hc
      exact hkk (by simp [keys] at hc ⊢; tauto)
    · intro x hx
      refine ⟨(hvf x hx).1, ?_, ?_⟩
      · intro hc
        rcases List.mem_cons.mp hc with rfl | hc
        · exact (hvf x hx).2.2 (by simp [keys])
        · exact (hvf x hx).2.1 hc
      · intro hc
        exact (hvf x hx).2.2 (by simp [keys] at hc ⊢; tauto)

theorem good_insert {s : Subst} {k : String} {v : Term}
    (hgood : Good s) (hk : findB s k = none)
    (hv : ∀ x ∈ vars v, x ≠ k ∧ findB s x = none) :
    Good (insertB s k v) := by
  rw [insertB_of_unbound v hk]
  apply goodAux_append hgood
  · simp
  · exact findB_eq_none_iff.mp hk
  · intro x hx
    exact ⟨(hv x hx).1, by simp, findB_eq_none_iff.mp (hv x hx).2⟩

theorem findB_append (p q : Subst) (x : String) :
    findB (p ++ q) x =
      match findB p x with
      | some u => some u
      | none => findB q x := by
  induction p with
  | nil => simp [findB]
  | cons e rest ih =>
    obtain ⟨k, v⟩ := e
    by_cases hk : k = x
    · simp [findB, hk]
    · simp [findB, hk, ih]

theorem varsL_mem_of_mem {a : Term} {args : List Term} (ha : a ∈ args)
    {x : String} (hx : x ∈ vars a) : x ∈ varsL args := by
  induction args with
  | nil => cases ha
  | cons b bs ih =>
    rcases List.mem_cons.mp ha with rfl | ha
    · simp [varsL, hx]
    · simp [varsL, ih ha]

theorem resolvesL_of_pointwise {s : Subst} :
    ∀ {l : List Term}, (∀ a ∈ l, ∃ r, Resolves s a r) →
      ∃ rs, ResolvesL s l rs := by
  intro l
  induction l with
  | nil => intro _; exact ⟨[], resolvesL_nil s⟩
  | cons a as ih =>
    intro h
    obtain ⟨r, hr⟩ := h a (List.mem_cons_self a as)
    obtain ⟨rs, hrs⟩ := ih (fun b hb => h b (List.mem_cons_of_mem a hb))
    exact ⟨r :: rs, resolvesL_cons hr hrs⟩

/-- Resolution terminates on a well-formed substitution: the generalized
statement walks the substitution from the front, keeping the already
processed prefix `pre`. -/
theorem resolves_total_aux : ∀ (ss pre : Subst), GoodAux (keys pre) ss →
    ∀ t, (∀ x ∈ vars t, findB (pre ++ ss) x ≠ none → x ∈ keys ss) →
      ∃ r, Resolves (pre ++ ss) t r := by
  intro ss
  induction ss with
  | nil =>
    intro pre _ t hcond
    refine ⟨t, resolves_self ?_⟩
    intro x hx
    by_contra hne
    have := hcond x hx hne
    simp [keys] at this
  | cons e rest ih =>
    obtain ⟨k, v⟩ := e
    intro pre hgood t hcond
    obtain ⟨hkf, hvf, hrest⟩ := hgood
    have hgood' : GoodAux (keys (pre ++ [(k, v)])) rest := by
      apply goodAux_congr ?_ hrest
      intro x
      simp [keys]
      tauto
    have hs_eq : (pre ++ [(k, v)]) ++ rest = pre ++ (k, v) :: rest := by simp
    revert hcond
    induction t using term_induction with
    | hv nm =>
      intro hcond
      cases hf : findB (pre ++ (k, v) :: rest) nm with
      | none => exact ⟨.Variable nm, resolves_var_unbound hf⟩
      | some u =>
        have hmem : nm ∈ keys ((k, v) :: rest) :=
          hcond nm (by simp [vars]) (by simp [hf])
        by_cases hnk : nm = k
        · subst hnk
          have hfk : findB (pre ++ (nm, v) :: rest) nm = some v := by
            rw [findB_append]
            have : findB pre nm = none := findB_eq_none_iff.mpr hkf
            simp [this, findB]
          have hveq : u = v := by rw [hf] at hfk; exact Option.some.inj hfk
          subst hveq
          obtain ⟨r, hr⟩ := by
            refine ih (pre ++ [(nm, u)]) hgood' u ?_
            intro x hx hne
            rw [hs_eq] at hne
            have hx1 := (hvf x hx).1
            have hx2 := (hvf x hx).2
            by_contra hcx
            have : x ∈ keys (pre ++ (nm, u) :: rest) := by
              cases hfx : findB (pre ++ (nm, u) :: rest) x with
              | none => exact absurd hfx hne
              | some w => exact findB_mem_keys hfx
            simp [keys] at this
            rcases this with h1 | h1 | h1
            · exact hx2 (by simp [keys, h1])
            · exact hx1 h1
            · exact hcx (by simp [keys, h1])
          rw [hs_eq] at hr
          exact ⟨r, resolves_var_bound hf hr⟩
        · have hmem' : nm ∈ keys rest := by
            simp only [keys, List.map_cons, List.mem_cons] at hmem
            rcases hmem with h1 | h1
            · exact absurd h1 hnk
            · exact h1
          obtain ⟨r, hr⟩ := by
            refine ih (pre ++ [(k, v)]) hgood' (.Variable nm) ?_
            intro x hx _
            simp [vars] at hx
            subst hx
            exact hmem'
          rw [hs_eq] at hr
          exact ⟨r, hr⟩
    | hc c =>
      intro _
      exact ⟨.Constant c, resolves_const _ c⟩
    | hcomp f args ihargs =>
      intro hcond
      have hpt : ∀ a ∈ args, ∃ r, Resolves (pre ++ (k, v) :: rest) a r := by
        intro a ha
        apply ihargs a ha
        intro x hx hne
        refine hcond x ?_ hne
        simp only [vars]
        exact varsL_mem_of_mem ha hx
      obtain ⟨rs, hrs⟩ := resolvesL_of_pointwise hpt
      exact ⟨.Compound f rs, resolves_comp hrs⟩

/-- Under a well-formed substitution every term resolves. -/
theorem resolves_total {s : Subst} (hgood : Good s) (t : Term) :
    ∃ r, Resolves s t r := by
  have h := resolves_total_aux s [] (by simpa [keys] using hgood) t ?_
  · simpa using h
  · intro x _ hne
    cases hfx : findB ([] ++ s) x with
    | none => exact absurd hfx hne
    | some w => exact findB_mem_keys (by simpa using hfx)

/-! ### Helpers for the main induction over `unifyInternal` -/

theorem occurs_sound_unbound : ∀ fuel,
    (∀ x t s b, (∀ y ∈ vars t, findB s y = none) →
        occurs fuel x t s = some b → (b = true ↔ x ∈ vars t)) ∧
    (∀ x l s b, (∀ y ∈ varsL l, findB s y = none) →
        occursList fuel x l s = some b → (b = true ↔ x ∈ varsL l)) := by
  intro fuel
  induction fuel with
  | zero =>
    constructor
    · intro x t s b _ h; simp [occurs] at h
    · intro x l s b _ h; simp [occursList] at h
  | succ n ih =>
    constructor
    · intro x t s b hub h
      cases t with
      | Variable nm =>
        simp only [occurs] at h
        by_cases hx : nm = x
        · rw [if_pos hx] at h
          cases h
          simp [vars, hx]
        · rw [if_neg hx] at h
          have hf := hub nm (by simp [vars])
          rw [hf] at h
          cases h
          simp [vars]
          exact fun hc => hx hc.symm
      | Constant c =>
        simp only [occurs] at h
        cases h
        simp [vars]
      | Compound f args =>
        simp only [occurs] at h
        simpa [vars] using ih.2 x args s b (fun y hy => hub y (by simpa [vars] using hy)) h
    · intro x l s b hub h
      cases l with
      | nil =>
        simp only [occursList] at h
        cases h
        simp [varsL]
      | cons a as =>
        simp only [occursList] at h
        cases h1 : occurs n x a s with
        | none => rw [h1] at h; exact Option.noConfusion h
        | some b1 =>
          rw [h1] at h
          have ha := ih.1 x a s b1 (fun y hy => hub y (by simp [varsL, hy])) h1
          cases b1 with
          | true =>
            cases h
            simp [varsL, List.mem_append]
            exact Or.inl (ha.mp rfl)
          | false =>
            have has := ih.2 x as s b (fun y hy => hub y (by simp [varsL, hy])) h
            have hna : x ∉ vars a := fun hc => absurd (ha.mpr hc) (by simp)
            simp [varsL, List.mem_append, has, hna]

theorem subVars_append (p q : Subst) :
    subVars (p ++ q) = subVars p ++ subVars q := by
  induction p with
  | nil => simp [subVars]
  | cons e rest ih =>
    obtain ⟨k, v⟩ := e
    simp [subVars] at ih ⊢
    simp [ih]

theorem subVars_insert_sub {s : Subst} {k : String} {v : Term}
    (hk : findB s k = none) :
    ∀ x ∈ subVars (insertB s k v), x ∈ subVars s ∨ x = k ∨ x ∈ vars v := by
  intro x hx
  rw [insertB_of_unbound v hk, subVars_append] at hx
  rcases List.mem_append.mp hx with hx | hx
  · exact Or.inl hx
  · simp [subVars] at hx
    tauto

theorem findB_insert_other {s : Subst} {k x : String} (v : Term) (hx : k ≠ x) :
    findB (insertB s k v) x = findB s x := by
  rw [findB_insertB, if_neg hx]

theorem findB_insert_self (s : Subst) (k : String) (v : Term) :
    findB (insertB s k v) k = some v := by
  rw [findB_insertB, if_pos rfl]

/-- Assemble pointwise resolutions of zipped argument pairs into a single
common resolved argument list. -/
theorem resolvesL_pair_of_zip {s : Subst} :
    ∀ (l1 l2 : List Term), l1.length = l2.length →
      (∀ p ∈ l1.zip l2, ∃ r, Resolves s p.1 r ∧ Resolves s p.2 r) →
      ∃ rs, ResolvesL s l1 rs ∧ ResolvesL s l2 rs := by
  intro l1
  induction l1 with
  | nil =>
    intro l2 hlen _
    cases l2 with
    | nil => exact ⟨[], resolvesL_nil s, resolvesL_nil s⟩
    | cons b bs => simp at hlen
  | cons a as ih =>
    intro l2 hlen hpt
    cases l2 with
    | nil => simp at hlen
    | cons b bs =>
      obtain ⟨r, hr1, hr2⟩ := hpt (a, b) (by simp [List.zip_cons_cons])
      obtain ⟨rs, hrs1, hrs2⟩ := ih bs (by simpa using hlen)
        (fun p hp => hpt p (by simp [List.zip_cons_cons, hp]))
      exact ⟨r :: rs, resolvesL_cons hr1 hrs1, resolvesL_cons hr2 hrs2⟩

/-- What one variable-binding step of `unifyInternal` establishes:
`lhs` has resolved to the unbound variable `ln`, `rhs` is resolved,
the occurs check has passed, and the binding `ln → rhs` is recorded. -/
theorem var_bind_invariant {w : Subst} {ln : String} {rhs v : Term} {n : Nat}
    (hgood : Good w)
    (hlnub : findB w ln = none)
    (hub : ∀ x ∈ vars rhs, findB w x = none)
    (hocc : occurs n ln rhs w = some false)
    (hcv : cloneWithSubstitution n rhs w = some v) :
    v = rhs ∧ SubstLE w (insertB w ln rhs) ∧ Good (insertB w ln rhs) ∧
    Resolves (insertB w ln rhs) (Term.Variable ln) rhs ∧
    Resolves (insertB w ln rhs) rhs rhs ∧
    (∀ x ∈ subVars (insertB w ln rhs), x ∈ subVars w ∨ x = ln ∨ x ∈ vars rhs) := by
  have hnotin : ln ∉ vars rhs := by
    have hiff := (occurs_sound_unbound n).1 ln rhs w false hub hocc
    intro hc
    exact absurd (hiff.mpr hc) (by simp)
  have hid : cloneWithSubstitution (sizeT rhs) rhs w = some rhs :=
    (clone_id_of_unbound (sizeT rhs)).1 rhs w hub le_rfl
  have hveq : v = rhs := clone_det hcv hid
  have hub' : ∀ x ∈ vars rhs, findB (insertB w ln rhs) x = none := by
    intro x hx
    rw [findB_insert_other rhs (fun hc => hnotin (by rw [hc]; exact hx))]
    exact hub x hx
  refine ⟨hveq, substLE_insert rhs hlnub, ?_, ?_, ?_, ?_⟩
  · exact good_insert hgood hlnub
      (fun x hx => ⟨fun hc => hnotin (by rw [← hc]; exact hx), hub x hx⟩)
  · exact resolves_var_bound (findB_insert_self w ln rhs) (resolves_self hub')
  · exact resolves_self hub'
  · exact subVars_insert_sub hlnub

/-- Main invariant of the recursive matcher: on any run from a
well-formed working substitution, the result extends the input, remains
well-formed, mentions only variables of the inputs, and on success both
inputs resolve to one common term. -/
theorem ui_invariant : ∀ fuel,
    (∀ a b w ok w', unifyInternal fuel a b w = some (ok, w') → Good w →
        SubstLE w w' ∧ Good w' ∧
        (∀ x ∈ subVars w', x ∈ subVars w ∨ x ∈ vars a ∨ x ∈ vars b) ∧
        (ok = true → ∃ r, Resolves w' a r ∧ Resolves w' b r)) ∧
    (∀ ps w ok w', unifyArgs fuel ps w = some (ok, w') → Good w →
        SubstLE w w' ∧ Good w' ∧
        (∀ x ∈ subVars w', x ∈ subVars w ∨ ∃ p ∈ ps, x ∈ vars p.1 ∨ x ∈ vars p.2) ∧
        (ok = true → ∀ p ∈ ps, ∃ r, Resolves w' p.1 r ∧ Resolves w' p.2 r)) := by
  intro fuel
  induction fuel with
  | zero =>
    constructor
    · intro a b w ok w' h; simp [unifyInternal] at h
    · intro ps w ok w' h; simp [unifyArgs] at h
  | succ n ih =>
    constructor
    · intro a b w ok w' h hgood
      simp only [unifyInternal] at h
      cases hca : cloneWithSubstitution n a w with
      | none => rw [hca] at h; exact absurd h (by simp)
      | some lhs =>
      rw [hca] at h
      cases hcb : cloneWithSubstitution n b w with
      | none => rw [hcb] at h; exact absurd h (by simp)
      | some rhs =>
      rw [hcb] at h
      have hra : Resolves w a lhs := ⟨n, hca⟩
      have hrb : Resolves w b rhs := ⟨n, hcb⟩
      have hua := (clone_vars_unbound n).1 a w lhs hca
      have hub' := (clone_vars_unbound n).1 b w rhs hcb
      have hsa := (clone_vars_subset n).1 a w lhs hca
      have hsb := (clone_vars_subset n).1 b w rhs hcb
      cases lhs with
      | Variable ln =>
        cases rhs with
        | Variable rn =>
          simp only at h
          by_cases hln : ln = rn
          · rw [if_pos hln] at h
            simp only [Option.some.injEq, Prod.mk.injEq] at h
            obtain ⟨rfl, rfl⟩ := h
            subst hln
            refine ⟨substLE_refl w, hgood, fun x hx => Or.inl hx, fun _ => ?_⟩
            exact ⟨.Variable ln, hra, hrb⟩
          · rw [if_neg hln] at h
            simp only [Option.some.injEq, Prod.mk.injEq] at h
            obtain ⟨rfl, rfl⟩ := h
            have hlnub : findB w ln = none := hua ln (by simp [vars])
            have hrnub : findB w rn = none := hub' rn (by simp [vars])
            -- abbreviations for the tie-break
            set first := if strLt ln rn then ln else rn with hfirst
            set second := if strLt ln rn then rn else ln with hsecond
            have hfs : first ≠ second := by
              by_cases hlt : strLt ln rn = true
              · rw [hfirst, hsecond]
                simp only [if_pos hlt]
                exact hln
              · rw [hfirst, hsecond]
                simp only [if_neg hlt]
                exact fun hc => hln hc.symm
            have hfub : findB w first = none := by
              by_cases hlt : strLt ln rn = true <;> simp [hfirst, hlt, hlnub, hrnub]
            have hsub2 : findB w second = none := by
              by_cases hlt : strLt ln rn = true <;> simp [hsecond, hlt, hlnub, hrnub]
            have hle : SubstLE w (insertB w first (.Variable second)) :=
              substLE_insert _ hfub
            have hgood' : Good (insertB w first (.Variable second)) :=
              good_insert hgood hfub
                (fun x hx => by
                  simp [vars] at hx
                  subst hx
                  exact ⟨fun hc => hfs hc.symm, hsub2⟩)
            have hress : Resolves (insertB w first (.Variable second))
                (.Variable second) (.Variable second) := by
              apply resolves_var_unbound
              rw [findB_insert_other _ hfs]
              exact hsub2
            have hresf : Resolves (insertB w first (.Variable second))
                (.Variable first) (.Variable second) :=
              resolves_var_bound (findB_insert_self w first _) hress
            have hresln : Resolves (insertB w first (.Variable second))
                (.Variable ln) (.Variable second) := by
              by_cases hlt : strLt ln rn = true
              · simpa [hfirst, hlt] using hresf
              · simpa [hsecond, hlt] using hress
            have hresrn : Resolves (insertB w first (.Variable second))
                (.Variable rn) (.Variable second) := by
              by_cases hlt : strLt ln rn = true
              · simpa [hsecond, hlt] using hress
              · simpa [hfirst, hlt] using hresf
            refine ⟨hle, hgood', ?_, fun _ => ?_⟩
            · intro x hx
              rcases subVars_insert_sub hfub x hx with hx | hx | hx
              · exact Or.inl hx
              · by_cases hlt : strLt ln rn = true
                · rcases hsa x (by rw [hx]; simp [hfirst, hlt, vars]) with h1 | h1
                  · exact Or.inr (Or.inl h1)
                  · exact Or.inl h1
                · rcases hsb x (by rw [hx]; simp [hfirst, hlt, vars]) with h1 | h1
                  · exact Or.inr (Or.inr h1)
                  · exact Or.inl h1
              · simp [vars] at hx
                by_cases hlt : strLt ln rn = true
                · rcases hsb x (by rw [hx]; simp [hsecond, hlt, vars]) with h1 | h1
                  · exact Or.inr (Or.inr h1)
                  · exact Or.inl h1
                · rcases hsa x (by rw [hx]; simp [hsecond, hlt, vars]) with h1 | h1
                  · exact Or.inr (Or.inl h1)
                  · exact Or.inl h1
            · exact ⟨.Variable second, resolves_ext hle hra hresln,
                resolves_ext hle hrb hresrn⟩
        | Constant rc =>
          simp only at h
          cases ho : occurs n ln (Term.Constant rc) w with
          | none => rw [ho] at h; exact absurd h (by simp)
          | some ob =>
          rw [ho] at h
          cases ob with
          | true =>
            simp only [Option.some.injEq, Prod.mk.injEq] at h
            obtain ⟨rfl, rfl⟩ := h
            exact ⟨substLE_refl w, hgood, fun x hx => Or.inl hx, by simp⟩
          | false =>
            simp only at h
            cases hcv : cloneWithSubstitution n (Term.Constant rc) w with
            | none => rw [hcv] at h; exact absurd h (by simp)
            | some v =>
            rw [hcv] at h
            simp only [Option.some.injEq, Prod.mk.injEq] at h
            obtain ⟨rfl, rfl⟩ := h
            have hlnub : findB w ln = none := hua ln (by simp [vars])
            obtain ⟨hveq, hle, hgood', hresl, hresr, hsv⟩ :=
              var_bind_invariant hgood hlnub hub' ho hcv
            subst hveq
            refine ⟨hle, hgood', ?_, fun _ => ?_⟩
            · intro x hx
              rcases hsv x hx with h1 | h1 | h1
              · exact Or.inl h1
              · subst h1
                rcases hsa x (by simp [vars]) with h2 | h2
                · exact Or.inr (Or.inl h2)
                · exact Or.inl h2
              · rcases hsb x h1 with h2 | h2
                · exact Or.inr (Or.inr h2)
                · exact Or.inl h2
            · exact ⟨.Constant rc, resolves_ext hle hra hresl,
                resolves_ext hle hrb hresr⟩
        | Compound rf rargs =>
          simp only at h
          cases ho : occurs n ln (Term.Compound rf rargs) w with
          | none => rw [ho] at h; exact absurd h (by simp)
          | some ob =>
          rw [ho] at h
          cases ob with
          | true =>
            simp only [Option.some.injEq, Prod.mk.injEq] at h
            obtain ⟨rfl, rfl⟩ := h
            exact ⟨substLE_refl w, hgood, fun x hx => Or.inl hx, by simp⟩
          | false =>
            simp only at h
            cases hcv : cloneWithSubstitution n (Term.Compound rf rargs) w with
            | none => rw [hcv] at h; exact absurd h (by simp)
            | some v =>
            rw [hcv] at h
            simp only [Option.some.injEq, Prod.mk.injEq] at h
            obtain ⟨rfl, rfl⟩ := h
            have hlnub : findB w ln = none := hua ln (by simp [vars])
            obtain ⟨hveq, hle, hgood', hresl, hresr, hsv⟩ :=
              var_bind_invariant hgood hlnub hub' ho hcv
            subst hveq
            refine ⟨hle, hgood', ?_, fun _ => ?_⟩
            · intro x hx
              rcases hsv x hx with h1 | h1 | h1
              · exact Or.inl h1
              · subst h1
                rcases hsa x (by simp [vars]) with h2 | h2
                · exact Or.inr (Or.inl h2)
                · exact Or.inl h2
              · rcases hsb x h1 with h2 | h2
                · exact Or.inr (Or.inr h2)
                · exact Or.inl h2
            · exact ⟨.Compound rf rargs, resolves_ext hle hra hresl,
                resolves_ext hle hrb hresr⟩
      | Constant lc =>
        cases rhs with
        | Variable rn =>
          simp only at h
          cases ho : occurs n rn (Term.Constant lc) w with
          | none => rw [ho] at h; exact absurd h (by simp)
          | some ob =>
          rw [ho] at h
          cases ob with
          | true =>
            simp only [Option.some.injEq, Prod.mk.injEq] at h
            obtain ⟨rfl, rfl⟩ := h
            exact ⟨substLE_refl w, hgood, fun x hx => Or.inl hx, by simp⟩
          | false =>
            simp only at h
            cases hcv : cloneWithSubstitution n (Term.Constant lc) w with
            | none => rw [hcv] at h; exact absurd h (by simp)
            | some v =>
            rw [hcv] at h
            simp only [Option.some.injEq, Prod.mk.injEq] at h
            obtain ⟨rfl, rfl⟩ := h
            have hrnub : findB w rn = none := hub' rn (by simp [vars])
            obtain ⟨hveq, hle, hgood', hresl, hresr, hsv⟩ :=
              var_bind_invariant hgood hrnub hua ho hcv
            subst hveq
            refine ⟨hle, hgood', ?_, fun _ => ?_⟩
            · intro x hx
              rcases hsv x hx with h1 | h1 | h1
              · exact Or.inl h1
              · subst h1
                rcases hsb x (by simp [vars]) with h2 | h2
                · exact Or.inr (Or.inr h2)
                · exact Or.inl h2
              · rcases hsa x h1 with h2 | h2
                · exact Or.inr (Or.inl h2)
                · exact Or.inl h2
            · exact ⟨.Constant lc, resolves_ext hle hra hresr,
                resolves_ext hle hrb hresl⟩
        | Constant rc =>
          simp only [Option.some.injEq, Prod.mk.injEq] at h
          obtain ⟨rfl, rfl⟩ := h
          refine ⟨substLE_refl w, hgood, fun x hx => Or.inl hx, fun hok => ?_⟩
          have : lc = rc := by simpa using hok
          subst this
          exact ⟨.Constant lc, hra, hrb⟩
        | Compound rf rargs =>
          simp only [Option.some.injEq, Prod.mk.injEq] at h
          obtain ⟨rfl, rfl⟩ := h
          exact ⟨substLE_refl w, hgood, fun x hx => Or.inl hx, by simp⟩
      | Compound lf largs =>
        cases rhs with
        | Variable rn =>
          simp only at h
          cases ho : occurs n rn (Term.Compound lf largs) w with
          | none => rw [ho] at h; exact absurd h (by simp)
          | some ob =>
          rw [ho] at h
          cases ob with
          | true =>
            simp only [Option.some.injEq, Prod.mk.injEq] at h
            obtain ⟨rfl, rfl⟩ := h
            exact ⟨substLE_refl w, hgood, fun x hx => Or.inl hx, by simp⟩
          | false =>
            simp only at h
            cases hcv : cloneWithSubstitution n (Term.Compound lf largs) w with
            | none => rw [hcv] at h; exact absurd h (by simp)
            | some v =>
            rw [hcv] at h
            simp only [Option.some.injEq, Prod.mk.injEq] at h
            obtain ⟨rfl, rfl⟩ := h
            have hrnub : findB w rn = none := hub' rn (by simp [vars])
            obtain ⟨hveq, hle, hgood', hresl, hresr, hsv⟩ :=
              var_bind_invariant hgood hrnub hua ho hcv
            subst hveq
            refine ⟨hle, hgood', ?_, fun _ => ?_⟩
            · intro x hx
              rcases hsv x hx with h1 | h1 | h1
              · exact Or.inl h1
              · subst h1
                rcases hsb x (by simp [vars]) with h2 | h2
                · exact Or.inr (Or.inr h2)
                · exact Or.inl h2
              · rcases hsa x h1 with h2 | h2
                · exact Or.inr (Or.inl h2)
                · exact Or.inl h2
            · exact ⟨.Compound lf largs, resolves_ext hle hra hresr,
                resolves_ext hle hrb hresl⟩
        | Constant rc =>
          simp only [Option.some.injEq, Prod.mk.injEq] at h
          obtain ⟨rfl, rfl⟩ := h
          exact ⟨substLE_refl w, hgood, fun x hx => Or.inl hx, by simp⟩
        | Compound rf rargs =>
          simp only at h
          by_cases hfa : lf = rf ∧ largs.length = rargs.length
          · rw [if_pos hfa] at h
            obtain ⟨hle, hgood', hsv, hres⟩ := ih.2 (largs.zip rargs) w ok w' h hgood
            refine ⟨hle, hgood', ?_, fun hok => ?_⟩
            · intro x hx
              rcases hsv x hx with h1 | ⟨p, hp, h1⟩
              · exact Or.inl h1
              · obtain ⟨hp1, hp2⟩ := List.of_mem_zip hp
                rcases h1 with h1 | h1
                · rcases hsa x (by simp only [vars]; exact varsL_mem_of_mem hp1 h1)
                    with h2 | h2
                  · exact Or.inr (Or.inl h2)
                  · exact Or.inl h2
                · rcases hsb x (by simp only [vars]; exact varsL_mem_of_mem hp2 h1)
                    with h2 | h2
                  · exact Or.inr (Or.inr h2)
                  · exact Or.inl h2
            · obtain ⟨rs, hrs1, hrs2⟩ :=
                resolvesL_pair_of_zip largs rargs hfa.2 (hres hok)
              refine ⟨.Compound lf rs, ?_, ?_⟩
              · exact resolves_ext hle hra (resolves_comp hrs1)
              · rw [hfa.1] at *
                exact resolves_ext hle hrb (resolves_comp hrs2)
          · rw [if_neg hfa] at h
            simp only [Option.some.injEq, Prod.mk.injEq] at h
            obtain ⟨rfl, rfl⟩ := h
            exact ⟨substLE_refl w, hgood, fun x hx => Or.inl hx, by simp⟩
    · intro ps w ok w' h hgood
      cases ps with
      | nil =>
        simp only [unifyArgs] at h
        simp only [Option.some.injEq, Prod.mk.injEq] at h
        obtain ⟨rfl, rfl⟩ := h
        exact ⟨substLE_refl w, hgood, fun x hx => Or.inl hx, by simp⟩
      | cons p rest =>
        simp only [unifyArgs] at h
        cases h1 : unifyInternal n p.1 p.2 w with
        | none => rw [h1] at h; exact absurd h (by simp)
        | some r1 =>
        rw [h1] at h
        obtain ⟨ok1, w1⟩ := r1
        obtain ⟨hle1, hgood1, hsv1, hres1⟩ := ih.1 p.1 p.2 w ok1 w1 h1 hgood
        cases ok1 with
        | false =>
          simp only [Option.some.injEq, Prod.mk.injEq] at h
          obtain ⟨rfl, rfl⟩ := h
          refine ⟨hle1, hgood1, ?_, by simp⟩
          intro x hx
          rcases hsv1 x hx with h2 | h2
          · exact Or.inl h2
          · exact Or.inr ⟨p, List.mem_cons_self p rest, h2⟩
        | true =>
          simp only at h
          obtain ⟨hle2, hgood2, hsv2, hres2⟩ := ih.2 rest w1 ok w' h hgood1
          refine ⟨substLE_trans hle1 hle2, hgood2, ?_, fun hok => ?_⟩
          · intro x hx
            rcases hsv2 x hx with h2 | ⟨q, hq, h2⟩
            · rcases hsv1 x h2 with h3 | h3
              · exact Or.inl h3
              · exact Or.inr ⟨p, List.mem_cons_self p rest, h3⟩
            · exact Or.inr ⟨q, List.mem_cons_of_mem p hq, h2⟩
          · intro q hq
            rcases List.mem_cons.mp hq with rfl | hq
            · obtain ⟨r, hr1, hr2⟩ := hres1 rfl
              obtain ⟨r', hr'⟩ := resolves_total hgood2 r
              exact ⟨r', resolves_ext hle2 hr1 hr', resolves_ext hle2 hr2 hr'⟩
            · exact hres2 hok q hq

/-! ### Symmetry of the matcher -/

/-- `unifyInternal` is symmetric in its two term arguments — every branch
of the case analysis treats the sides symmetrically, including the
lexicographic tie-break for two unbound variables. -/
theorem ui_comm : ∀ fuel,
    (∀ a b w, unifyInternal fuel a b w = unifyInternal fuel b a w) ∧
    (∀ ps w, unifyArgs fuel ps w = unifyArgs fuel (ps.map Prod.swap) w) := by
  intro fuel
  induction fuel with
  | zero =>
    constructor
    · intro a b w; simp [unifyInternal]
    · intro ps w; simp [unifyArgs]
  | succ n ih =>
    constructor
    · intro a b w
      simp only [unifyInternal]
      cases hca : cloneWithSubstitution n a w with
      | none =>
        cases hcb : cloneWithSubstitution n b w with
        | none => rfl
        | some rhs => rfl
      | some lhs =>
        cases hcb : cloneWithSubstitution n b w with
        | none => rfl
        | some rhs =>
          cases lhs with
          | Variable ln =>
            cases rhs with
            | Variable rn =>
              simp only
              by_cases he : ln = rn
              · subst he; simp
              · have hne' : ¬ rn = ln := fun hsym => he hsym.symm
                rw [if_neg he, if_neg hne']
                by_cases hl : strLt ln rn = true
                · have h2 : strLt rn ln = false := strLt_asymm hl
                  rw [if_pos hl, if_pos hl,
                    if_neg (by rw [h2]; exact Bool.false_ne_true),
                    if_neg (by rw [h2]; exact Bool.false_ne_true)]
                · have h2 : strLt rn ln = true := by
                    rcases strLt_total he with hh | hh
                    · exact absurd hh hl
                    · exact hh
                  rw [if_neg hl, if_neg hl, if_pos h2, if_pos h2]
            | Constant rc => rfl
            | Compound rf rargs => rfl
          | Constant lc =>
            cases rhs with
            | Variable rn => rfl
            | Constant rc =>
              simp only
              by_cases hc : lc = rc
              · subst hc; rfl
              · have h1 : (lc == rc) = false := beq_eq_false_iff_ne.mpr hc
                have h2 : (rc == lc) = false :=
                  beq_eq_false_iff_ne.mpr (fun h => hc h.symm)
                rw [h1, h2]
            | Compound rf rargs => rfl
          | Compound lf largs =>
            cases rhs with
            | Variable rn => rfl
            | Constant rc => rfl
            | Compound rf rargs =>
              simp only
              by_cases hfa : lf = rf ∧ largs.length = rargs.length
              · have hfa' : rf = lf ∧ rargs.length = largs.length :=
                  ⟨hfa.1.symm, hfa.2.symm⟩
                rw [if_pos hfa, if_pos hfa']
                rw [← List.zip_swap largs rargs]
                exact ih.2 (largs.zip rargs) w
              · rw [if_neg hfa,
                  if_neg (fun hc : rf = lf ∧ rargs.length = largs.length =>
                    hfa ⟨hc.1.symm, hc.2.symm⟩)]
    · intro ps w
      cases ps with
      | nil => simp [unifyArgs]
      | cons p rest =>
        simp only [unifyArgs, List.map_cons]
        rw [show (Prod.swap p).1 = p.2 from rfl, show (Prod.swap p).2 = p.1 from rfl]
        rw [← ih.1 p.1 p.2 w]
        cases h1 : unifyInternal n p.1 p.2 w with
        | none => rfl
        | some r1 =>
          obtain ⟨ok1, w1⟩ := r1
          cases ok1 with
          | false => rfl
          | true =>
            simp only
            exact ih.2 rest w1

/-- Symmetry carried to the public entry point: `unify(a, b)` and
`unify(b, a)` return literally the same result. -/
theorem unify_comm (fuel : Nat) (a b : Term) :
    unify fuel a b = unify fuel b a := by
  unfold unify
  rw [(ui_comm fuel).1 a b []]

/-! ### Reflexivity on ground terms -/

theorem varsL_eq_nil {args : List Term} (h : varsL args = []) :
    ∀ a ∈ args, vars a = [] := by
  induction args with
  | nil => intro a ha; cases ha
  | cons b bs ih =>
    intro a ha
    simp only [varsL] at h
    rcases List.append_eq_nil.mp h with ⟨h1, h2⟩
    rcases List.mem_cons.mp ha with rfl | ha
    · exact h1
    · exact ih h2 a ha

/-- A ground (variable-free) term unifies with itself from any working
substitution, adding no bindings, for every large enough fuel. -/
theorem ground_refl_aux : ∀ t : Term, vars t = [] →
    ∃ N, ∀ (w : Subst) f, N ≤ f → unifyInternal f t t w = some (true, w) := by
  intro t
  induction t using term_induction with
  | hv n => intro h; simp [vars] at h
  | hc c =>
    intro _
    refine ⟨2, fun w f hf => ?_⟩
    obtain ⟨g, rfl⟩ : ∃ g, f = g + 1 := ⟨f - 1, by omega⟩
    have hclone : cloneWithSubstitution g (.Constant c) w = some (.Constant c) := by
      apply (clone_mono (sizeT (.Constant c)) g (by simp [sizeT]; omega)).1
      exact (clone_id_of_unbound _).1 _ w (by simp [vars]) le_rfl
    simp [unifyInternal, hclone]
  | hcomp fn args ihargs =>
    intro hvt
    simp only [vars] at hvt
    have hvl := varsL_eq_nil hvt
    -- common fuel bound for the argument loop, over any working substitution
    have hloop : ∃ M, ∀ (w : Subst) f, M ≤ f →
        unifyArgs f (args.zip args) w = some (true, w) := by
      clear hvt
      induction args with
      | nil => exact ⟨1, fun w f hf => by
          obtain ⟨g, rfl⟩ : ∃ g, f = g + 1 := ⟨f - 1, by omega⟩
          simp [unifyArgs]⟩
      | cons a as ihas =>
        obtain ⟨Na, hNa⟩ := ihargs a (List.mem_cons_self a as) (hvl a (List.mem_cons_self a as))
        obtain ⟨Mas, hMas⟩ := ihas
          (fun b hb => ihargs b (List.mem_cons_of_mem a hb))
          (fun b hb => hvl b (List.mem_cons_of_mem a hb))
        refine ⟨max Na Mas + 1, fun w f hf => ?_⟩
        obtain ⟨g, rfl⟩ : ∃ g, f = g + 1 := ⟨f - 1, by omega⟩
        have h1 := hNa w g (by omega)
        simp only [List.zip_cons_cons, unifyArgs, h1]
        exact hMas w g (by omega)
    obtain ⟨M, hM⟩ := hloop
    refine ⟨max (sizeT (.Compound fn args)) M + 1, fun w f hf => ?_⟩
    obtain ⟨g, rfl⟩ : ∃ g, f = g + 1 := ⟨f - 1, by omega⟩
    have hclone : cloneWithSubstitution g (.Compound fn args) w
        = some (.Compound fn args) := by
      apply (clone_mono (sizeT (.Compound fn args)) g (by omega)).1
      exact (clone_id_of_unbound _).1 _ w (by simp [vars, hvt]) le_rfl
    simp only [unifyInternal, hclone]
    rw [if_pos (by simp)]
    exact hM w g (by omega)

/-! ### Bridging lemmas for the public entry point -/

theorem good_nil : Good [] := trivial

theorem unify_success_iff {fl : Nat} {t1 t2 : Term} {σ : Subst} :
    unify fl t1 t2 = some (some σ) ↔ unifyInternal fl t1 t2 [] = some (true, σ) := by
  unfold unify
  cases h : unifyInternal fl t1 t2 [] with
  | none => simp
  | some r =>
    obtain ⟨ok, w⟩ := r
    cases ok with
    | false => simp
    | true => simp

theorem unify_no_solution_iff {fl : Nat} {t1 t2 : Term} :
    unify fl t1 t2 = some none ↔
      ∃ w, unifyInternal fl t1 t2 [] = some (false, w) := by
  unfold unify
  cases h : unifyInternal fl t1 t2 [] with
  | none => simp
  | some r =>
    obtain ⟨ok, w⟩ := r
    cases ok with
    | false => simp
    | true => simp

/-- Resolution with the empty substitution (as at the top of `unify`) is
the identity. -/
theorem clone_nil_id {f : Nat} {t r : Term}
    (h : cloneWithSubstitution f t [] = some r) : r = t := by
  have hid : cloneWithSubstitution (sizeT t) t [] = some t :=
    (clone_id_of_unbound (sizeT t)).1 t [] (fun x _ => rfl) le_rfl
  exact clone_det h hid

/-- Variables untouched by the substitution survive `cloneWithSubstitution`. -/
theorem clone_keeps_unbound : ∀ fuel,
    (∀ t s r, cloneWithSubstitution fuel t s = some r →
        ∀ x ∈ vars t, findB s x = none → x ∈ vars r) ∧
    (∀ l s rs, cloneList fuel l s = some rs →
        ∀ x ∈ varsL l, findB s x = none → x ∈ varsL rs) := by
  intro fuel
  induction fuel with
  | zero =>
    constructor
    · intro t s r h; simp [cloneWithSubstitution] at h
    · intro l s rs h; simp [cloneList] at h
  | succ n ih =>
    constructor
    · intro t s r h x hx hub
      cases t with
      | Variable nm =>
        simp [vars] at hx
        subst hx
        simp only [cloneWithSubstitution, hub] at h
        cases h
        simp [vars]
      | Constant c => simp [vars] at hx
      | Compound f args =>
        simp only [cloneWithSubstitution] at h
        cases hc : cloneList n args s with
        | none => rw [hc] at h; exact Option.noConfusion h
        | some rs =>
          rw [hc] at h
          cases h
          simp only [vars] at hx ⊢
          exact ih.2 args s rs hc x hx hub
    · intro l s rs h x hx hub
      cases l with
      | nil => simp [varsL] at hx
      | cons a as =>
        simp only [cloneList] at h
        cases h1 : cloneWithSubstitution n a s with
        | none => rw [h1] at h; exact Option.noConfusion h
        | some r =>
          cases h2 : cloneList n as s with
          | none => rw [h1, h2] at h; exact Option.noConfusion h
          | some rs' =>
            rw [h1, h2] at h
            cases h
            simp only [varsL, List.mem_append] at hx ⊢
            rcases hx with hx | hx
            · exact Or.inl (ih.1 a s r h1 x hx hub)
            · exact Or.inr (ih.2 as s rs' h2 x hx hub)

theorem mem_subVars_of_mem {s : Subst} {k : String} {v : Term}
    (h : (k, v) ∈ s) : k ∈ subVars s ∧ ∀ x ∈ vars v, x ∈ subVars s := by
  induction s with
  | nil => cases h
  | cons e rest ih =>
    obtain ⟨k', v'⟩ := e
    rcases List.mem_cons.mp h with he | he
    · cases he
      exact ⟨by simp [subVars], fun x hx => by simp [subVars, hx]⟩
    · obtain ⟨h1, h2⟩ := ih he
      refine ⟨?_, fun x hx => ?_⟩
      · simp [subVars] at h1 ⊢; tauto
      · have := h2 x hx
        simp [subVars] at this ⊢; tauto

theorem subVars_nil : subVars [] = [] := rfl

/-! ### Occurs-check failure at the top level -/

/-- If `x` occurs in `t` and `t` is not the variable `x` itself, then both
`unify(X, t)` and `unify(t, X)` report no solution (for every fuel large
enough for the run to complete). -/
theorem unify_occurs_fails : ∀ (x : String) (t : Term), x ∈ vars t →
    t ≠ .Variable x → ∀ fl, sizeT t + 1 ≤ fl →
      unify fl (.Variable x) t = some none ∧
      unify fl t (.Variable x) = some none := by
  intro x t hx hne fl hfl
  obtain ⟨g, rfl⟩ : ∃ g, fl = g + 1 := ⟨fl - 1, by omega⟩
  have hg : sizeT t ≤ g := by omega
  have hclx : cloneWithSubstitution g (Term.Variable x) [] = some (Term.Variable x) := by
    apply (clone_mono 1 g (by have := sizeT_pos t; omega)).1
    exact (clone_id_of_unbound 1).1 _ [] (fun y _ => rfl) (by simp [sizeT])
  have hclt : cloneWithSubstitution g t [] = some t := by
    apply (clone_mono (sizeT t) g hg).1
    exact (clone_id_of_unbound _).1 t [] (fun y _ => rfl) le_rfl
  have hocc : occurs g x t [] = some true := by
    have h0 := (occurs_unbound (sizeT t)).1 x t [] (fun y _ => rfl) le_rfl
    rw [decide_eq_true hx] at h0
    exact (occurs_mono (sizeT t) g hg).1 _ _ _ _ h0
  cases t with
  | Variable nm =>
    exfalso
    simp [vars] at hx
    exact hne (by rw [hx])
  | Constant c => exact absurd hx (by simp [vars])
  | Compound f args =>
    constructor
    · rw [unify_no_solution_iff]
      exact ⟨[], by simp only [unifyInternal, hclx, hclt, hocc]⟩
    · rw [unify_no_solution_iff]
      exact ⟨[], by simp only [unifyInternal, hclx, hclt, hocc]⟩

/-! ### Claim theorems -/

/-- C1.  Soundness of unification: whenever `unify(t1, t2)` succeeds with
substitution `σ`, `substitute(t1, σ)` and `substitute(t2, σ)` are defined
and are structurally identical terms. -/
theorem unify_sound (fl : Nat) (t1 t2 : Term) (σ : Subst)
    (h : unify fl t1 t2 = some (some σ)) :
    ∃ r, (∃ f, substitute f t1 σ = some r) ∧ (∃ f, substitute f t2 σ = some r) ∧
      ∀ f1 f2 r1 r2, substitute f1 t1 σ = some r1 →
        substitute f2 t2 σ = some r2 → r1 = r2 := by
  have hint := unify_success_iff.mp h
  obtain ⟨-, -, -, hres⟩ := (ui_invariant fl).1 t1 t2 [] true σ hint good_nil
  obtain ⟨r, hr1, hr2⟩ := hres rfl
  refine ⟨r, hr1, hr2, ?_⟩
  intro f1 f2 r1 r2 h1 h2
  have e1 := resolves_det ⟨f1, h1⟩ hr1
  have e2 := resolves_det ⟨f2, h2⟩ hr2
  rw [e1, e2]

/-- Witness for C1 at `unify(X, a)`. -/
theorem unify_sound_witness :
    ∃ r, (∃ f, substitute f (Term.Variable "X") [("X", Term.Constant "a")] = some r) ∧
      (∃ f, substitute f (Term.Constant "a") [("X", Term.Constant "a")] = some r) ∧
      ∀ f1 f2 r1 r2,
        substitute f1 (Term.Variable "X") [("X", Term.Constant "a")] = some r1 →
        substitute f2 (Term.Constant "a") [("X", Term.Constant "a")] = some r2 →
        r1 = r2 :=
  unify_sound 4 (Term.Variable "X") (Term.Constant "a")
    [("X", Term.Constant "a")] (by decide)

/-- C2 (counterexample).  As literally stated the claim quantifies over
every term `t` in which `X`'s identifier appears; taking `t` to be the
variable `X` itself, `unify(X, X)` succeeds (with the empty substitution)
instead of failing. -/
theorem occurs_claim_counterexample :
    "X" ∈ vars (Term.Variable "X") ∧
    unify 2 (Term.Variable "X") (Term.Variable "X") = some (some []) ∧
    unify 2 (Term.Variable "X") (Term.Variable "X") ≠ some none := by decide

/-- C2 (amended).  For every variable `X` and every term `t` in which `X`
occurs and which is not the variable `X` itself, `unify(X, t)` and
`unify(t, X)` fail; in particular `unify(X, f(X))` fails and
`unify(f(X, Y), f(Y, g(X)))` fails. -/
theorem occurs_check_sound :
    (∀ (x : String) (t : Term), x ∈ vars t → t ≠ .Variable x →
        ∀ fl, sizeT t + 1 ≤ fl →
          unify fl (.Variable x) t = some none ∧
          unify fl t (.Variable x) = some none) ∧
    unify 8 (.Variable "X") (.Compound "f" [.Variable "X"]) = some none ∧
    unify 12 (.Compound "f" [.Variable "X", .Variable "Y"])
      (.Compound "f" [.Variable "Y", .Compound "g" [.Variable "X"]]) = some none :=
  ⟨unify_occurs_fails, by decide, by decide⟩

/-- Witness for C2 at `unify(X, f(X))` in both argument orders. -/
theorem occurs_check_sound_witness :
    unify 8 (Term.Variable "X") (Term.Compound "f" [Term.Variable "X"]) = some none ∧
    unify 8 (Term.Compound "f" [Term.Variable "X"]) (Term.Variable "X") = some none :=
  occurs_check_sound.1 "X" (Term.Compound "f" [Term.Variable "X"])
    (by decide) (by decide) 8 (by decide)

/-- C3.  Failure atomicity: whenever the recursive matcher fails — however
much working state it accumulated — `unify` returns the explicit
no-solution result, exposing no bindings; and any substitution `unify`
does return comes from a successful run. -/
theorem unify_failure_atomicity (fl : Nat) (t1 t2 : Term) :
    ((∃ w, unifyInternal fl t1 t2 [] = some (false, w)) →
        unify fl t1 t2 = some none) ∧
    ∀ σ, unify fl t1 t2 = some (some σ) →
      unifyInternal fl t1 t2 [] = some (true, σ) := by
  constructor
  · intro ⟨w, hw⟩
    rw [unify_no_solution_iff]
    exact ⟨w, hw⟩
  · intro σ h
    exact unify_success_iff.mp h

/-- Witness for C3: `unify(f(X, a), f(b, b))` fails after having bound
`X → b` internally, and the partial binding is not surfaced. -/
theorem unify_failure_atomicity_witness :
    unify 12 (Term.Compound "f" [Term.Variable "X", Term.Constant "a"])
      (Term.Compound "f" [Term.Constant "b", Term.Constant "b"]) = some none :=
  (unify_failure_atomicity 12 _ _).1 ⟨[("X", Term.Constant "b")], by decide⟩

/-- C4.  Full chain resolution of `substitute`: for a substitution returned
by a successful `unify` and any term `t`, `substitute(t, σ)` is defined,
its result contains no variable that is a key of `σ`, and every variable
of `t` without an entry in `σ` survives unchanged. -/
theorem substitute_full_resolution (fl : Nat) (t1 t2 : Term) (σ : Subst)
    (h : unify fl t1 t2 = some (some σ)) (t : Term) :
    (∃ f r, substitute f t σ = some r) ∧
    ∀ f r, substitute f t σ = some r →
      (∀ x ∈ vars r, x ∉ keys σ) ∧
      (∀ x ∈ vars t, x ∉ keys σ → x ∈ vars r) := by
  have hint := unify_success_iff.mp h
  obtain ⟨-, hgood, -, -⟩ := (ui_invariant fl).1 t1 t2 [] true σ hint good_nil
  constructor
  · obtain ⟨r, f, hr⟩ := resolves_total hgood t
    exact ⟨f, r, hr⟩
  · intro f r hr
    constructor
    · intro x hx
      rw [← findB_eq_none_iff]
      exact (clone_vars_unbound f).1 t σ r hr x hx
    · intro x hx hnk
      exact (clone_keeps_unbound f).1 t σ r hr x hx (findB_eq_none_iff.mpr hnk)

/-- Witness for C4 on `σ = {X → a}` and `t = h(X, Z)`. -/
theorem substitute_full_resolution_witness :
    (∃ f r, substitute f (Term.Compound "h" [Term.Variable "X", Term.Variable "Z"])
        [("X", Term.Constant "a")] = some r) ∧
    ∀ f r, substitute f (Term.Compound "h" [Term.Variable "X", Term.Variable "Z"])
        [("X", Term.Constant "a")] = some r →
      (∀ x ∈ vars r, x ∉ keys [("X", Term.Constant "a")]) ∧
      (∀ x ∈ vars (Term.Compound "h" [Term.Variable "X", Term.Variable "Z"]),
        x ∉ keys [("X", Term.Constant "a")] → x ∈ vars r) :=
  substitute_full_resolution 4 (Term.Variable "X") (Term.Constant "a")
    [("X", Term.Constant "a")] (by decide)
    (Term.Compound "h" [Term.Variable "X", Term.Variable "Z"])

/-- C5.  Symmetry of outcome: `unify(a, b)` succeeds iff `unify(b, a)`
succeeds, and the two substitutions are (literally, hence logically)
equivalent: applying each to `a` and to `b` yields one common resolved
form. -/
theorem unify_symmetric (fl : Nat) (a b : Term) :
    ((∃ σ, unify fl a b = some (some σ)) ↔ (∃ σ, unify fl b a = some (some σ))) ∧
    ∀ σa σb, unify fl a b = some (some σa) → unify fl b a = some (some σb) →
      σa = σb ∧ ∃ r, Resolves σa a r ∧ Resolves σa b r ∧
        Resolves σb a r ∧ Resolves σb b r := by
  constructor
  · rw [unify_comm fl a b]
  · intro σa σb ha hb
    have hab := unify_success_iff.mp ha
    have hs : σa = σb := by
      have hc := unify_comm fl a b
      rw [ha, hb] at hc
      exact Option.some.inj (Option.some.inj hc)
    subst hs
    obtain ⟨-, -, -, hres⟩ := (ui_invariant fl).1 a b [] true σa hab good_nil
    obtain ⟨r, h1, h2⟩ := hres rfl
    exact ⟨rfl, r, h1, h2, h1, h2⟩

/-- Witness for C5 at `unify(X, a)` against `unify(a, X)`. -/
theorem unify_symmetric_witness :
    [("X", Term.Constant "a")] = [("X", Term.Constant "a")] ∧
    ∃ r, Resolves [("X", Term.Constant "a")] (Term.Variable "X") r ∧
      Resolves [("X", Term.Constant "a")] (Term.Constant "a") r ∧
      Resolves [("X", Term.Constant "a")] (Term.Variable "X") r ∧
      Resolves [("X", Term.Constant "a")] (Term.Constant "a") r :=
  (unify_symmetric 4 (Term.Variable "X") (Term.Constant "a")).2
    [("X", Term.Constant "a")] [("X", Term.Constant "a")] (by decide) (by decide)

/-- C6.  Reflexivity on ground terms: for every variable-free term `T`,
`unify(T, T)` succeeds and the returned substitution is empty. -/
theorem unify_ground_refl (t : Term) (hg : vars t = []) :
    ∃ N, ∀ f, N ≤ f → unify f t t = some (some []) := by
  obtain ⟨N, hN⟩ := ground_refl_aux t hg
  refine ⟨N, fun f hf => ?_⟩
  rw [unify_success_iff]
  exact hN [] f hf

/-- Witness for C6 on the ground term `f(a)`. -/
theorem unify_ground_refl_witness :
    ∃ N, ∀ f, N ≤ f →
      unify f (Term.Compound "f" [Term.Constant "a"])
        (Term.Compound "f" [Term.Constant "a"]) = some (some []) :=
  unify_ground_refl (Term.Compound "f" [Term.Constant "a"]) (by decide)

/-- C7.  Idempotence of `substitute`: applying the same substitution a
second time to the result changes nothing (for every substitution and
every term on which the first application is defined). -/
theorem substitute_idempotent (s : Subst) (t : Term) (f : Nat) (r : Term)
    (h : substitute f t s = some r) :
    (∃ g, substitute g r s = some r) ∧
    ∀ g r', substitute g r s = some r' → r' = r := by
  have hidem := resolves_idem ⟨f, h⟩
  exact ⟨hidem, fun g r' h' => resolves_det ⟨g, h'⟩ hidem⟩

/-- Witness for C7 on `σ = {X → a}`, `t = X`. -/
theorem substitute_idempotent_witness :
    (∃ g, substitute g (Term.Constant "a") [("X", Term.Constant "a")]
        = some (Term.Constant "a")) ∧
    ∀ g r', substitute g (Term.Constant "a") [("X", Term.Constant "a")] = some r' →
      r' = Term.Constant "a" :=
  substitute_idempotent [("X", Term.Constant "a")] (Term.Variable "X") 2
    (Term.Constant "a") (by decide)

/-- C8.  Functor/arity strictness: two compounds unify only when functor
names and arities agree; `unify(f(X), g(X))` and `unify(f(X), f(X, Y))`
fail. -/
theorem functor_arity_strict :
    (∀ fl f1 as1 f2 as2 σ,
        unify fl (.Compound f1 as1) (.Compound f2 as2) = some (some σ) →
        f1 = f2 ∧ as1.length = as2.length) ∧
    unify 8 (.Compound "f" [.Variable "X"]) (.Compound "g" [.Variable "X"])
      = some none ∧
    unify 10 (.Compound "f" [.Variable "X"])
      (.Compound "f" [.Variable "X", .Variable "Y"]) = some none := by
  refine ⟨?_, by decide, by decide⟩
  intro fl f1 as1 f2 as2 σ h
  have hint := unify_success_iff.mp h
  cases fl with
  | zero => simp [unifyInternal] at hint
  | succ g =>
    simp only [unifyInternal] at hint
    cases hca : cloneWithSubstitution g (Term.Compound f1 as1) [] with
    | none => rw [hca] at hint; exact absurd hint (by simp)
    | some lhs =>
    rw [hca] at hint
    cases hcb : cloneWithSubstitution g (Term.Compound f2 as2) [] with
    | none => rw [hcb] at hint; exact absurd hint (by simp)
    | some rhs =>
    rw [hcb] at hint
    have hl := clone_nil_id hca
    have hr := clone_nil_id hcb
    subst hl
    subst hr
    simp only at hint
    by_cases hfa : f1 = f2 ∧ as1.length = as2.length
    · exact hfa
    · rw [if_neg hfa] at hint
      exact absurd hint (by simp)

/-- Witness for C8's strictness direction at a matching pair. -/
theorem functor_arity_strict_witness :
    "f" = "f" ∧ [Term.Variable "X"].length = [Term.Constant "a"].length :=
  functor_arity_strict.1 8 "f" [Term.Variable "X"] "f" [Term.Constant "a"]
    [("X", Term.Constant "a")] (by decide)

/-- C9.  Deterministic variable-variable tie-break: when both sides resolve
to distinct unbound variables, the lexicographically smaller identifier is
recorded as bound, mapping to the larger one; and the result of `unify`
is independent of argument order (and, being a function of its inputs,
of repetition). -/
theorem var_var_tiebreak :
    (∀ f a b (w : Subst) x y,
        cloneWithSubstitution f a w = some (.Variable x) →
        cloneWithSubstitution f b w = some (.Variable y) → x ≠ y →
        (strLt x y = true →
          unifyInternal (f + 1) a b w = some (true, insertB w x (.Variable y))) ∧
        (strLt y x = true →
          unifyInternal (f + 1) a b w = some (true, insertB w y (.Variable x)))) ∧
    ∀ fl a b, unify fl a b = unify fl b a := by
  constructor
  · intro f a b w x y hca hcb hxy
    constructor
    · intro hlt
      simp only [unifyInternal, hca, hcb]
      rw [if_neg hxy]
      simp [hlt]
    · intro hlt
      have hxf : strLt x y = false := strLt_asymm hlt
      simp only [unifyInternal, hca, hcb]
      rw [if_neg hxy]
      simp [hxf]
  · exact fun fl a b => unify_comm fl a b

/-- Witness for C9 at `unify(X, Y)` ("X" < "Y" lexicographically). -/
theorem var_var_tiebreak_witness :
    unifyInternal 2 (Term.Variable "X") (Term.Variable "Y") []
      = some (true, insertB [] "X" (Term.Variable "Y")) :=
  (var_var_tiebreak.1 1 (Term.Variable "X") (Term.Variable "Y") [] "X" "Y"
    (by decide) (by decide) (by decide)).1 (by decide)

/-- C10.  Binding domain invariant: every key of a substitution returned by
`unify(t1, t2)` is a variable of `t1` or `t2`, and every variable inside a
bound value is a variable of `t1` or `t2`. -/
theorem binding_domain_invariant (fl : Nat) (t1 t2 : Term) (σ : Subst)
    (h : unify fl t1 t2 = some (some σ)) :
    ∀ kv ∈ σ, (kv.1 ∈ vars t1 ∨ kv.1 ∈ vars t2) ∧
      ∀ x ∈ vars kv.2, x ∈ vars t1 ∨ x ∈ vars t2 := by
  have hint := unify_success_iff.mp h
  obtain ⟨-, -, hsv, -⟩ := (ui_invariant fl).1 t1 t2 [] true σ hint good_nil
  intro kv hkv
  obtain ⟨k, v⟩ := kv
  obtain ⟨h1, h2⟩ := mem_subVars_of_mem hkv
  constructor
  · rcases hsv k h1 with h3 | h3 | h3
    · simp [subVars] at h3
    · exact Or.inl h3
    · exact Or.inr h3
  · intro x hx
    rcases hsv x (h2 x hx) with h3 | h3 | h3
    · simp [subVars] at h3
    · exact Or.inl h3
    · exact Or.inr h3

/-- Witness for C10 at `unify(X, a)`. -/
theorem binding_domain_invariant_witness :
    (("X", Term.Constant "a").1 ∈ vars (Term.Variable "X") ∨
      ("X", Term.Constant "a").1 ∈ vars (Term.Constant "a")) ∧
    ∀ x ∈ vars ("X", Term.Constant "a").2,
      x ∈ vars (Term.Variable "X") ∨ x ∈ vars (Term.Constant "a") :=
  binding_domain_invariant 4 (Term.Variable "X") (Term.Constant "a")
    [("X", Term.Constant "a")] (by decide) ("X", Term.Constant "a") (by decide)

end TermUnification
